import Mathlib

/-!
Shallow embedding of the `MediaDateTime` renamer plugin (the revision with the
per-directory collision cache, i.e. the module imported by the test suites as
`../index`).  Strings are modelled as `List Char`; the JavaScript `Date` is
modelled as either a record of wall-clock fields or the JS "Invalid Date";
the wall clock used for epoch-millisecond dates is UTC (the run's time zone).
Throwing operations (the `exiftool` subprocess, `fs.readdirSync`, date-fns
`format` on an invalid date) are modelled with `Except`.
-/

namespace MediaDateTime

/-- Paths and file names, modelled as lists of characters. -/
abbrev Str := List Char

/-- Convert a Lean string literal to the `List Char` representation. -/
def str (s : String) : Str := s.data

/-- ASCII digit test, the `\d` character class. -/
def isDig (c : Char) : Bool := 48 ≤ c.toNat && c.toNat ≤ 57

/-- ASCII lower-casing of one character (`String.prototype.toLowerCase`
restricted to ASCII, which covers every character the engine lower-cases). -/
def lowerChar (c : Char) : Char :=
  if 65 ≤ c.toNat ∧ c.toNat ≤ 90 then Char.ofNat (c.toNat + 32) else c

/-- Lower-case a whole string. -/
def lowerStr (l : Str) : Str := l.map lowerChar

/-- JS whitespace test (`\s`), restricted to the ASCII whitespace characters. -/
def isWS (c : Char) : Bool :=
  c.toNat = 32 || c.toNat = 9 || c.toNat = 10 || c.toNat = 13 || c.toNat = 11 || c.toNat = 12

/-- `String.prototype.trim`. -/
def jsTrim (l : Str) : Str :=
  ((l.dropWhile isWS).reverse.dropWhile isWS).reverse

/-- `replace(/\s/gi, "")`: delete every whitespace character. -/
def stripWS (l : Str) : Str := l.filter (fun c => !isWS c)

/-- Numeric value of an ASCII digit character. -/
def charVal (c : Char) : Nat := c.toNat - 48

/-- Value of a big-endian list of decimal digit characters. -/
def digitsVal : Str → Nat
  | [] => 0
  | c :: cs => charVal c * 10 ^ cs.length + digitsVal cs

/-- Decimal digits of `n`, most significant first; `fuel` bounds the recursion
(`natRepr` below always supplies enough). -/
def natReprAux : Nat → Nat → Str
  | 0, _ => []
  | fuel + 1, n =>
    if n < 10 then [Char.ofNat (48 + n)]
    else natReprAux fuel (n / 10) ++ [Char.ofNat (48 + n % 10)]

/-- Decimal representation of a natural number (JS number-to-string for the
non-negative integers the engine prints). -/
def natRepr (n : Nat) : Str := natReprAux (n + 1) n

/-- Left-pad with `c` to length `n` (date-fns zero padding). -/
def padStart (c : Char) (n : Nat) (l : Str) : Str :=
  List.replicate (n - l.length) c ++ l

/-- Split on a single separator character; JS `"".split(sep)` yields `[""]`,
which this reproduces. -/
def splitOnCharAux (sep : Char) : Str → Str → List Str
  | cur, [] => [cur.reverse]
  | cur, c :: cs =>
    if c = sep then cur.reverse :: splitOnCharAux sep [] cs
    else splitOnCharAux sep (c :: cur) cs

/-- `String.prototype.split` with a one-character separator. -/
def splitOnChar (sep : Char) (l : Str) : List Str := splitOnCharAux sep [] l

/-- `Array.prototype.join` with a one-character separator. -/
def joinWith (sep : Char) : List Str → Str
  | [] => []
  | [x] => x
  | x :: y :: xs => x ++ sep :: joinWith sep (y :: xs)

/-- The prefix of `l` before the first occurrence of `sep`
(JS `l.split(sep)[0]`; an empty separator splits into single characters,
so the head is the first character). -/
def splitHeadAux (sep : Str) (acc : Str) : Str → Str
  | [] => acc.reverse
  | c :: cs =>
    if sep.isPrefixOf (c :: cs) then acc.reverse
    else splitHeadAux sep (c :: acc) cs

/-- JS `l.split(sep)[0]`. -/
def jsSplitHead (sep l : Str) : Str :=
  if sep = [] then l.take 1 else splitHeadAux sep [] l

/-! ## Dates -/

/-- Wall-clock fields of a JS `Date` (the engine formats in local time; the
model fixes the run's time zone to UTC, which also matches how the test suite
computes its expected strings). -/
structure DateFields where
  year : Nat
  month : Nat
  day : Nat
  hour : Nat
  minute : Nat
  second : Nat
deriving DecidableEq, Repr

/-- A JS `Date` value: either a valid instant (with its wall-clock fields) or
the JS "Invalid Date" that date-fns `parse` returns on malformed input. -/
inductive JSDate where
  | valid (f : DateFields) : JSDate
  | invalid : JSDate
deriving DecidableEq, Repr

/-- Leap-year rule of the proleptic Gregorian calendar. -/
def isLeap (y : Nat) : Bool := (y % 4 = 0 && y % 100 ≠ 0) || y % 400 = 0

/-- Days in a month, as date-fns validates the `dd` token. -/
def daysInMonth (y m : Nat) : Nat :=
  if m = 2 then (if isLeap y then 29 else 28)
  else if m = 4 ∨ m = 6 ∨ m = 9 ∨ m = 11 then 30
  else 31

/-- Greedy run of 1 to `maxN` digits (date-fns `parseNDigits`); returns the
value and the rest of the input, or `none` if no digit is present. -/
def parseField (maxN : Nat) (l : Str) : Option (Nat × Str) :=
  let ds := (l.takeWhile isDig).take maxN
  if ds = [] then none else some (digitsVal ds, l.drop ds.length)

/-- Expect one literal character. -/
def expectChar (c : Char) : Str → Option Str
  | [] => none
  | x :: xs => if x = c then some xs else none

/-- Range validation shared by both date patterns. -/
def fieldsValid (y mo d h mi s : Nat) : Bool :=
  1 ≤ mo && mo ≤ 12 && 1 ≤ d && d ≤ daysInMonth y mo && h ≤ 23 && mi ≤ 59 && s ≤ 59

/-- Token run of `yyyy:MM:dd HH:mm:ss`: the six field values and the
unconsumed rest of the input. -/
def parseExifFields (l : Str) : Option (Nat × Nat × Nat × Nat × Nat × Nat × Str) := do
  let (y, r1) ← parseField 4 l
  let r2 ← expectChar ':' r1
  let (mo, r3) ← parseField 2 r2
  let r4 ← expectChar ':' r3
  let (d, r5) ← parseField 2 r4
  let r6 ← expectChar ' ' r5
  let (h, r7) ← parseField 2 r6
  let r8 ← expectChar ':' r7
  let (mi, r9) ← parseField 2 r8
  let r10 ← expectChar ':' r9
  let (s, r11) ← parseField 2 r10
  pure (y, mo, d, h, mi, s, r11)

/-- date-fns `parse(s, "yyyy:MM:dd HH:mm:ss", ...)`: returns the parsed `Date`
or Invalid Date when the string does not fully match or a field is out of
range. -/
def parseExifDate (l : Str) : JSDate :=
  match parseExifFields l with
  | none => JSDate.invalid
  | some (y, mo, d, h, mi, s, r) =>
    if r = [] ∧ fieldsValid y mo d h mi s then JSDate.valid ⟨y, mo, d, h, mi, s⟩
    else JSDate.invalid

/-- Token run of `yyyyMMdd_HHmmss`. -/
def parseCompactFields (l : Str) : Option (Nat × Nat × Nat × Nat × Nat × Nat × Str) := do
  let (y, r1) ← parseField 4 l
  let (mo, r2) ← parseField 2 r1
  let (d, r3) ← parseField 2 r2
  let r4 ← expectChar '_' r3
  let (h, r5) ← parseField 2 r4
  let (mi, r6) ← parseField 2 r5
  let (s, r7) ← parseField 2 r6
  pure (y, mo, d, h, mi, s, r7)

/-- date-fns `parse(s, "yyyyMMdd_HHmmss", ...)`. -/
def parseCompactDate (l : Str) : JSDate :=
  match parseCompactFields l with
  | none => JSDate.invalid
  | some (y, mo, d, h, mi, s, r) =>
    if r = [] ∧ fieldsValid y mo d h mi s then JSDate.valid ⟨y, mo, d, h, mi, s⟩
    else JSDate.invalid

/-- Civil date from a day count since 1970-01-01 (Gregorian, valid for days
on or after the epoch). -/
def civilFromDays (z0 : Nat) : Nat × Nat × Nat :=
  let z := z0 + 719468
  let era := z / 146097
  let doe := z % 146097
  let yoe := (doe - doe / 1460 + doe / 36524 - doe / 146096) / 365
  let y := yoe + era * 400
  let doy := doe - (365 * yoe + yoe / 4 - yoe / 100)
  let mp := (5 * doy + 2) / 153
  let d := doy - (153 * mp + 2) / 5 + 1
  let m := if mp < 10 then mp + 3 else mp - 9
  (if m ≤ 2 then y + 1 else y, m, d)

/-- UTC wall-clock fields of `new Date(ms)` for a non-negative epoch
millisecond count. -/
def msToFields (ms : Nat) : DateFields :=
  let days := ms / 86400000
  let rem := ms % 86400000
  let ymd := civilFromDays days
  ⟨ymd.1, ymd.2.1, ymd.2.2, rem / 3600000, rem % 3600000 / 60000, rem % 60000 / 1000⟩

/-- date-fns `format(date, "yyyyMMdd_HHmmss", {})`; throws a `RangeError`
(modelled as `Except.error`) on an Invalid Date. -/
def formatDate : JSDate → Except Unit Str
  | JSDate.invalid => Except.error ()
  | JSDate.valid f =>
    Except.ok (padStart '0' 4 (natRepr f.year) ++ padStart '0' 2 (natRepr f.month) ++
      padStart '0' 2 (natRepr f.day) ++ '_' ::
      (padStart '0' 2 (natRepr f.hour) ++ padStart '0' 2 (natRepr f.minute) ++
        padStart '0' 2 (natRepr f.second)))

/-! ## Regex searches on the base name -/

/-- Anchored match of `\d{8}_\d{6,}` at the start of `l` (greedy, as the JS
regex engine matches it); returns the matched text. -/
def tsMatchAt (l : Str) : Option Str :=
  let d8 := l.take 8
  if d8.length = 8 ∧ d8.all isDig then
    match l.drop 8 with
    | c :: rest =>
      if c = '_' then
        (if 6 ≤ (rest.takeWhile isDig).length then some (d8 ++ '_' :: rest.takeWhile isDig)
         else none)
      else none
    | [] => none
  else none

/-- Anchored match of `15\d{11}` at the start of `l`. -/
def epochMatchAt (l : Str) : Option Str :=
  match l with
  | c1 :: c2 :: rest =>
    if c1 = '1' ∧ c2 = '5' then
      (if (rest.take 11).length = 11 ∧ (rest.take 11).all isDig then
        some ('1' :: '5' :: rest.take 11)
      else none)
    else none
  | _ => none

/-- First match of an anchored matcher, scanning positions left to right
(JS `String.prototype.match` without the `g` flag): returns the match index
and the matched text. -/
def firstMatchPos (f : Str → Option Str) : Str → Option (Nat × Str)
  | [] => (f []).map (fun m => (0, m))
  | c :: t =>
    match f (c :: t) with
    | some m => some (0, m)
    | none => (firstMatchPos f t).map (fun p => (p.1 + 1, p.2))

/-! ## Node `path` (posix) -/

/-- The fields of Node's `path.parse` that the engine uses. -/
structure ParsedPath where
  dir : Str
  base : Str
  ext : Str
  name : Str
deriving DecidableEq, Repr

/-- Node `path.parse`'s split of a base name into name and extension: the
extension starts at the last dot, except when there is no dot, the dot is the
first character, or the base is `".."`. -/
def extSplit (b : Str) : Str × Str :=
  let afterDot := b.reverse.takeWhile (fun c => c ≠ '.')
  if afterDot.length = b.length ∨ afterDot.length + 1 = b.length ∨ b = ['.', '.'] then
    (b, [])
  else
    (b.take (b.length - afterDot.length - 1), b.drop (b.length - afterDot.length - 1))

/-- Node posix `path.parse`. -/
def posixParse (p : Str) : ParsedPath :=
  if p = [] then ⟨[], [], [], []⟩ else
  let isAbs := p.head? = some '/'
  let t := if isAbs then p.drop 1 else p
  let revC := (t.reverse).dropWhile (fun c => c = '/')
  let b := (revC.takeWhile (fun c => c ≠ '/')).reverse
  let pre := (revC.dropWhile (fun c => c ≠ '/')).reverse
  let dir :=
    if pre = [] then (if isAbs then ['/'] else [])
    else (if isAbs then '/' :: pre.dropLast else pre.dropLast)
  ⟨dir, b, (extSplit b).2, (extSplit b).1⟩

/-- One step of Node's `normalizeString` segment resolution, accumulator kept
in reverse order: empty and `"."` segments are skipped, `".."` pops the last
real segment (kept when above root and `allowAbove`, dropped for absolute
paths), anything else is pushed. -/
def normStep (allowAbove : Bool) (acc : List Str) (s : Str) : List Str :=
  if s = [] ∨ s = ['.'] then acc
  else if s = ['.', '.'] then
    match acc with
    | [] => if allowAbove then [s] else []
    | t :: acc' =>
      if t = ['.', '.'] then (if allowAbove then s :: t :: acc' else t :: acc') else acc'
  else s :: acc

/-- Node's `normalizeString` segment resolution over a segment list. -/
def normAcc (allowAbove : Bool) (acc : List Str) (l : List Str) : List Str :=
  l.foldl (normStep allowAbove) acc

/-- Node posix `path.normalize`. -/
def normalizeP (p : Str) : Str :=
  if p = [] then ['.'] else
  let isAbs := p.head? = some '/'
  let trailing := p.getLast? = some '/'
  let segs := (normAcc (!isAbs) [] (splitOnChar '/' p)).reverse
  let body := joinWith '/' segs
  if body = [] then
    (if isAbs then ['/'] else if trailing then ['.', '/'] else ['.'])
  else
    (if isAbs then '/' :: body else body) ++ (if trailing then ['/'] else [])

/-- Node posix `path.join` restricted to the two arguments the engine uses. -/
def posixJoin (a b : Str) : Str :=
  if a = [] then (if b = [] then ['.'] else normalizeP b)
  else if b = [] then normalizeP a
  else normalizeP (a ++ '/' :: b)

/-! ## File classifier -/

/-- `file.ext.toLowerCase().match(/\.(jpg|jpeg|png|gif|bmp|heic)$/) != null`. -/
def isImage (file : ParsedPath) : Bool :=
  [str ".jpg", str ".jpeg", str ".png", str ".gif", str ".bmp", str ".heic"].any
    (fun e => e.isSuffixOf (lowerStr file.ext))

/-- `file.ext.toLowerCase().match(/\.(mp4|mov)$/) != null`. -/
def isVideo (file : ParsedPath) : Bool :=
  [str ".mp4", str ".mov"].any (fun e => e.isSuffixOf (lowerStr file.ext))

/-! ## Exif map -/

/-- The `ExifMap` (`Map<string, string>`), as an insertion-ordered association
list with overwriting insertion. -/
abbrev ExifMap := List (Str × Str)

/-- `Map.prototype.set`: overwrite the existing entry or append. -/
def mapSet (m : ExifMap) (k v : Str) : ExifMap :=
  match m with
  | [] => [(k, v)]
  | (k', v') :: rest => if k' = k then (k, v) :: rest else (k', v') :: mapSet rest k v

/-- `Map.prototype.get`. -/
def mapGet (m : ExifMap) (k : Str) : Option Str :=
  match m with
  | [] => none
  | (k', v') :: rest => if k' = k then some v' else mapGet rest k

/-- Parse the decoded `exiftool` output into the `ExifMap`:
split into lines; for each line split on `":"`, the key is the first piece
trimmed with all whitespace stripped, the value is the remaining pieces
re-joined with `":"` and trimmed (`MediaDateTime.#getExif`, parsing part). -/
def parseExifOutput (out : Str) : ExifMap :=
  (splitOnChar '\n' out).foldl
    (fun m line =>
      let parts := splitOnChar ':' line
      let key := stripWS (jsTrim (parts.headD []))
      let value := jsTrim (joinWith ':' parts.tail)
      mapSet m key value)
    []

/-! ## Engine environment and state -/

/-- The engine's external collaborators: the `exiftool` subprocess (which can
throw) and `fs.readdirSync` (which can throw). Both are deterministic within
a run. -/
structure Env where
  exiftool : Str → Except Unit Str
  readdir : Str → Except Unit (List Str)

/-- The engine instance's two private caches
(`#indexMap : Record<string, number | undefined>` and
`#dirCache : Map<string, Set<string>>`, the set as an insertion-ordered
duplicate-free list). -/
structure EngineState where
  indexMap : Str → Option Int
  dirCache : Str → Option (List Str)

/-- Pointwise update of a string-keyed map. -/
def fupd {α : Type} (m : Str → Option α) (k : Str) (v : α) : Str → Option α :=
  fun x => if x = k then some v else m x

/-- The fresh engine state (`new MediaDateTime()`). -/
def initState : EngineState := ⟨fun _ => none, fun _ => none⟩

/-- `new Set(list)`: keep the first occurrence of each element. -/
def dedupAcc : List Str → List Str → List Str
  | acc, [] => acc.reverse
  | acc, x :: xs => if x ∈ acc then dedupAcc acc xs else dedupAcc (x :: acc) xs

/-- `Set.prototype.add` on the list model. -/
def setAdd (s : List Str) (x : Str) : List Str :=
  if x ∈ s then s else s ++ [x]

/-- Result of `#getDirCache`: the directory's known-name set, the possibly
updated state, and the directory-listing events performed (`[dir]` when
`fs.readdirSync` was invoked, else `[]`). -/
structure CacheOut where
  set : List Str
  st : EngineState
  listed : List Str

/-- `MediaDateTime.#getDirCache`: return the cached set for `dir`, or list the
directory (an unreadable/missing directory counts as empty), lower-case the
entries, cache and return them. -/
def getDirCache (env : Env) (st : EngineState) (dir : Str) : CacheOut :=
  match st.dirCache dir with
  | some s => ⟨s, st, []⟩
  | none =>
    let entries := match env.readdir dir with
      | Except.ok es => es
      | Except.error _ => []
    let s := dedupAcc [] (entries.map lowerStr)
    ⟨s, { st with dirCache := fupd st.dirCache dir s }, [dir]⟩

/-! ## Suffix scanning -/

/-- Match `rest` against the raw extension text interpreted as a regex tail:
each `'.'` in the pattern is the regex wildcard (the code interpolates the
extension into the `RegExp` without escaping), every other character is
literal; anchored at both ends. -/
def matchExtPat : Str → Str → Bool
  | [], [] => true
  | p :: ps, c :: cs => (p = '.' || p = c) && matchExtPat ps cs
  | _, _ => false

/-- Backtracking for the `(?:_(\d+))?` group: try the digit run lengths from
`k` down to 1 and return the value of the longest run after which the
extension pattern matches the remainder (the regex engine's greedy order). -/
def sufBacktrack (extPat r2 : Str) : Nat → Option Nat
  | 0 => none
  | k + 1 =>
    if matchExtPat extPat (r2.drop (k + 1)) then some (digitsVal (r2.take (k + 1)))
    else sufBacktrack extPat r2 k

/-- Match one cached name against `^<fd>(?:_(\d+))?<extLower>$`:
`none` = no match, `some none` = unsuffixed match, `some (some n)` = suffix
`n` captured. -/
def suffixOfName (fd extLower name : Str) : Option (Option Nat) :=
  if name.take fd.length = fd then
    let rest := name.drop fd.length
    match rest with
    | '_' :: r2 =>
      match sufBacktrack extLower r2 (r2.takeWhile isDig).length with
      | some v => some (some v)
      | none => if matchExtPat extLower rest then some none else none
    | _ => if matchExtPat extLower rest then some none else none
  else none

/-- `MediaDateTime.#computeInitialIndex`: maximum captured numeric suffix over
the directory's known names, `-1` when none (an unsuffixed match alone keeps
the floor at `-1`). -/
def computeInitialIndex (set : List Str) (fd extLower : Str) : Int :=
  set.foldl
    (fun acc name =>
      match suffixOfName fd extLower name with
      | some (some n) => max acc (n : Int)
      | some none => max acc (-1)
      | none => acc)
    (-1)

/-- The candidate name tried for a given index
(index `< 0` is the unsuffixed form, index `≥ 0` carries suffix `index+1`). -/
def candName (fd extLower : Str) (idx : Int) : Str :=
  if idx < 0 then fd ++ extLower
  else fd ++ ('_' :: natRepr (idx + 1).toNat) ++ extLower

/-- The `while (true)` retry loop of `MediaDateTime.#nextAvailableIndex`,
bounded by fuel (the wrapper supplies fuel that provably always suffices, so
the `none` case is dead code). -/
def nextAvailAux (set : List Str) (fd extLower : Str) : Nat → Int → Option Int
  | 0, _ => none
  | fuel + 1, idx =>
    if candName fd extLower idx ∈ set then nextAvailAux set fd extLower fuel (idx + 1)
    else some idx

/-- `MediaDateTime.#nextAvailableIndex` given the directory's known-name set:
starting at `startIndex`, return the first index whose candidate name is not
in the set. -/
def nextAvailableIndex (set : List Str) (fd extLower : Str) (start : Int) : Option Int :=
  nextAvailAux set fd extLower (set.length + 2 + (-start).toNat) start

/-! ## Timestamp resolution -/

/-- `MediaDateTime.#getDateFromExif`: read `CreateDate`, truncate at the first
`'.'`, and parse with pattern `yyyy:MM:dd HH:mm:ss` (a malformed value parses
to Invalid Date, which is still a non-null `Date`). -/
def getDateFromExif (exifMap : ExifMap) : Option JSDate :=
  match mapGet exifMap (str "CreateDate") with
  | none => none
  | some v => some (parseExifDate (jsSplitHead ['.'] v))

/-- `MediaDateTime.#isCorrectFileName`: the base name (extension text split
off) matches `\d{8}_\d{6,}` at index 0.  (The JS `match.length === 1` and
`match.index != null` conjuncts always hold for this group-free non-global
regex.) -/
def isCorrectFileName (file : ParsedPath) : Bool :=
  let base := jsSplitHead file.ext file.base
  match firstMatchPos tsMatchAt base with
  | some (i, _) => i = 0
  | none => false

/-- `MediaDateTime.#getDateFromFileName`: first match of `\d{8}_\d{6,}` in the
base name, first 15 characters parsed as `yyyyMMdd_HHmmss`.  (The JS guard
`match.length > 1` is never true — a non-global match of a group-free regex
is a one-element array — so multiple occurrences are not rejected.) -/
def getDateFromFileName (file : ParsedPath) : Option JSDate :=
  let base := jsSplitHead file.ext file.base
  match firstMatchPos tsMatchAt base with
  | none => none
  | some (_, m) => some (parseCompactDate (m.take 15))

/-- `MediaDateTime.#getDateFromUnixTimestamp`: first match of `15\d{11}` in
the base name, first 13 digits as epoch milliseconds.  (Same dead
`match.length > 1` guard as above.) -/
def getDateFromUnixTimestamp (file : ParsedPath) : Option JSDate :=
  let base := jsSplitHead file.ext file.base
  match firstMatchPos epochMatchAt base with
  | none => none
  | some (_, m) => some (JSDate.valid (msToFields (digitsVal m)))

/-- `MediaDateTime.#getDate`: skip canonical names, then try the exif
`CreateDate`, the filename timestamp pattern and the epoch pattern in that
order.  A throw from the `exiftool` subprocess propagates to the caller
(`Except.error`); `Except.ok none` is JS `undefined`. -/
def getDate (env : Env) (filePath : Str) : Except Unit (Option JSDate) :=
  let file := posixParse filePath
  if isCorrectFileName file then Except.ok none
  else
    match env.exiftool filePath with
    | Except.error e => Except.error e
    | Except.ok out =>
      let exifMap := parseExifOutput out
      match getDateFromExif exifMap with
      | some d => Except.ok (some d)
      | none =>
        match getDateFromFileName file with
        | some d => Except.ok (some d)
        | none =>
          match getDateFromUnixTimestamp file with
          | some d => Except.ok (some d)
          | none => Except.ok none

/-! ## The rename engine -/

/-- Specification-level record of one assignment performed by `replace`:
the directory, the formatted timestamp, the lower-cased extension (the
`BaseNameKey` fields), the emitted file name and its lower-cased form as
inserted into the directory cache. -/
structure Emission where
  dir : Str
  fd : Str
  extLower : Str
  name : Str
  nameLower : Str
deriving DecidableEq, Repr

/-- Result of one `replace` call: the returned path, the successor state, the
assignment performed (if any) and the directory-listing events performed. -/
structure ReplaceOut where
  out : Str
  st : EngineState
  em : Option Emission
  listed : List Str

/-- The collision-resolving naming block of `MediaDateTime.replace`
(source lines 40–58), entered once a date has been resolved and formatted:
seed the suffix floor on a fresh `BaseNameKey`, pick the next free index,
build the new path, and update both caches. -/
def assignName (env : Env) (st : EngineState) (file : ParsedPath) (filePath fd : Str) :
    ReplaceOut :=
  let extLower := lowerStr file.ext
  let baseKey := posixJoin file.dir (fd ++ extLower)
  let init1 : EngineState × List Str :=
    match st.indexMap baseKey with
    | some _ => (st, [])
    | none =>
      let g := getDirCache env st file.dir
      ({ g.st with indexMap := fupd g.st.indexMap baseKey (computeInitialIndex g.set fd extLower) },
        g.listed)
  let st1 := init1.1
  let g2 := getDirCache env st1 file.dir
  let start := (st1.indexMap baseKey).getD (-1)
  match nextAvailableIndex g2.set fd extLower start with
  | none => ⟨filePath, g2.st, none, init1.2 ++ g2.listed⟩
  | some nextIdx =>
    let idxStr : Str := if nextIdx < 0 then [] else '_' :: natRepr (nextIdx + 1).toNat
    let nameLower := fd ++ idxStr ++ extLower
    let name := fd ++ idxStr ++ file.ext
    let newFilePath := posixJoin file.dir name
    let st3 := { g2.st with indexMap := fupd g2.st.indexMap baseKey nextIdx }
    let g3 := getDirCache env st3 file.dir
    let st4 := { g3.st with dirCache := fupd g3.st.dirCache file.dir (setAdd g3.set nameLower) }
    ⟨newFilePath, st4, some ⟨file.dir, fd, extLower, name, nameLower⟩,
      init1.2 ++ g2.listed ++ g3.listed⟩

/-- `MediaDateTime.replace`.  The outer `try`/`catch` around `#getDate` and
the `try`/`catch` around the formatting/naming block are modelled by the
`Except` matches; every caught error returns the input path unchanged. -/
def replaceFn (env : Env) (st : EngineState) (filePath : Str) : ReplaceOut :=
  let file := posixParse filePath
  let dateRes : Option JSDate :=
    if isImage file || isVideo file then
      match getDate env filePath with
      | Except.ok d => d
      | Except.error _ => none
    else none
  match dateRes with
  | none => ⟨filePath, st, none, []⟩
  | some date =>
    match formatDate date with
    | Except.error _ => ⟨filePath, st, none, []⟩
    | Except.ok fd => assignName env st file filePath fd

/-- The observable part of one `replace` call. -/
structure StepOut where
  out : Str
  em : Option Emission
  listed : List Str

/-- A sequential run: apply `replace` to each input in order, threading the
engine state; returns the per-call observations and the final state. -/
def runTrace (env : Env) : EngineState → List Str → List StepOut × EngineState
  | st, [] => ([], st)
  | st, p :: ps =>
    let r := replaceFn env st p
    let rest := runTrace env r.st ps
    (⟨r.out, r.em, r.listed⟩ :: rest.1, rest.2)

/-- The names actually present in the directory per the (deterministic)
listing; a listing failure is the empty listing. -/
def listingNames (env : Env) (dir : Str) : List Str :=
  match env.readdir dir with
  | Except.ok es => es
  | Except.error _ => []

/-- The file names emitted by `replace` during a run for a fixed
`BaseNameKey` (directory, formatted timestamp, lower-cased extension). -/
def emittedForKey (dir fd extLower : Str) (tr : List StepOut) : List Str :=
  tr.filterMap
    (fun so => so.em.bind
      (fun e =>
        if e.dir = dir ∧ e.fd = fd ∧ e.extLower = extLower then some e.name else none))

/-! ## Specification-side predicates over runs -/

/-- Field bounds guaranteed for every date the resolver can produce: they make
`format` emit exactly `\d{4}\d{2}\d{2}_\d{2}\d{2}\d{2}`. -/
def FieldsOK (f : DateFields) : Prop :=
  f.year ≤ 9999 ∧ 1 ≤ f.month ∧ f.month ≤ 12 ∧ 1 ≤ f.day ∧ f.day ≤ 31 ∧
  f.hour ≤ 23 ∧ f.minute ≤ 59 ∧ f.second ≤ 59

/-- The caches only ever hold names that subsume the on-disk listing of each
loaded directory. -/
def cacheHasListing (env : Env) (st : EngineState) : Prop :=
  ∀ d s, st.dirCache d = some s → ∀ m ∈ listingNames env d, lowerStr m ∈ s

/-- The facts the run invariant tracks about a single past assignment: its
lower-cased name is really the lower-casing of the emitted name, it is a member
of its directory's cached set, and it differs from every on-disk name. -/
def EmOK (env : Env) (st : EngineState) (e : Emission) : Prop :=
  lowerStr e.name = e.nameLower ∧
  (∃ s, st.dirCache e.dir = some s ∧ e.nameLower ∈ s) ∧
  (∀ m ∈ listingNames env e.dir, e.nameLower ≠ lowerStr m)

/-- Two assignments in the same directory have distinct lower-cased names. -/
def EmRel (e1 e2 : Emission) : Prop := e1.dir = e2.dir → e1.nameLower ≠ e2.nameLower

/-- All assignments recorded in a trace. -/
def emsOf (tr : List StepOut) : List Emission := tr.filterMap (fun s => s.em)

/-- All directory-listing events recorded in a trace, in order. -/
def listedOf : List StepOut → List Str
  | [] => []
  | s :: tr => s.listed ++ listedOf tr

/-- The resolver order exactly as the specification words it: the first
fallback source to succeed wins and later sources are not consulted. -/
def specResolverOrder (a b c : Option JSDate) : Option JSDate :=
  match a with
  | some d => some d
  | none =>
    match b with
    | some d => some d
    | none => c

/-! ## Concrete scenario fixtures (mirroring the repository's test setups) -/

/-- An `exiftool` output line carrying a well-formed `CreateDate`. -/
def exifOutGood : Str :=
  str "Create Date                             : 2020:01:01 01:02:03"

/-- An `exiftool` output line whose `CreateDate` value is malformed. -/
def exifOutBad : Str :=
  str "Create Date                             : garbage"

/-- An `exiftool` output carrying no `CreateDate` at all. -/
def exifOutNone : Str := str "ExifTool Version Number         : 12.30"

/-- Scenario environment: every file reports the good `CreateDate`; the
directory `/d` lists a pre-existing `20200101_010203.jpg`. -/
def envGood : Env :=
  ⟨fun _ => Except.ok exifOutGood,
   fun d => if d = str "/d" then Except.ok [str "20200101_010203.jpg"] else Except.error ()⟩

/-- Scenario environment: every file reports the malformed `CreateDate`;
directory listings are empty. -/
def envBad : Env := ⟨fun _ => Except.ok exifOutBad, fun _ => Except.ok []⟩

/-- Scenario environment: no `CreateDate` anywhere; directory listings are
empty. -/
def envNone : Env := ⟨fun _ => Except.ok exifOutNone, fun _ => Except.ok []⟩

/-- A path whose base name contains the timestamp pattern away from index 0. -/
def pBad : Str := str "/d/a20200101_010203.jpg"

/-- A path whose base name contains the timestamp pattern twice. -/
def pTwice : Str := str "/d/a20200101_010203b20210101_010203.jpg"

/-- A path whose raw directory text (`a/`, from the double slash) differs from
its normalized form. -/
def pSlash : Str := str "a//1500000000000.jpg"

/-! ## Lemmas: decimal digits -/

theorem charVal_ofNat {r : Nat} (h : r < 10) : charVal (Char.ofNat (48 + r)) = r := by
  interval_cases r <;> decide

theorem isDig_ofNat {r : Nat} (h : r < 10) : isDig (Char.ofNat (48 + r)) = true := by
  interval_cases r <;> decide

theorem charVal_le_of_isDig {c : Char} (h : isDig c = true) : charVal c ≤ 9 := by
  simp only [isDig, Bool.and_eq_true, decide_eq_true_eq] at h
  simp only [charVal]
  omega

theorem natReprAux_digits : ∀ fuel n, ∀ c ∈ natReprAux fuel n, isDig c = true := by
  intro fuel
  induction fuel with
  | zero => intro n c hc; simp [natReprAux] at hc
  | succ fuel ih =>
    intro n c hc
    unfold natReprAux at hc
    split at hc
    · next h =>
      simp only [List.mem_singleton] at hc
      subst hc
      exact isDig_ofNat h
    · rcases List.mem_append.1 hc with h | h
      · exact ih _ _ h
      · simp only [List.mem_singleton] at h
        subst h
        exact isDig_ofNat (Nat.mod_lt _ (by omega))

theorem natRepr_digits (n : Nat) : ∀ c ∈ natRepr n, isDig c = true :=
  natReprAux_digits (n + 1) n

theorem digitsVal_append (a b : Str) :
    digitsVal (a ++ b) = digitsVal a * 10 ^ b.length + digitsVal b := by
  induction a with
  | nil => simp [digitsVal]
  | cons c a ih =>
    show charVal c * 10 ^ (a ++ b).length + digitsVal (a ++ b) = _
    rw [ih, List.length_append, pow_add]
    show _ = (charVal c * 10 ^ a.length + digitsVal a) * 10 ^ b.length + digitsVal b
    ring

theorem digitsVal_natReprAux : ∀ fuel n, n < fuel → digitsVal (natReprAux fuel n) = n := by
  intro fuel
  induction fuel with
  | zero => intro n h; omega
  | succ fuel ih =>
    intro n h
    unfold natReprAux
    split
    · next h10 =>
      simp only [digitsVal, List.length_nil, pow_zero, mul_one, Nat.add_zero]
      exact charVal_ofNat h10
    · next h10 =>
      rw [digitsVal_append]
      simp only [digitsVal, List.length_nil, List.length_cons, pow_zero, mul_one, pow_one,
        Nat.add_zero]
      have hd : n / 10 < fuel := by
        have : n / 10 < n := Nat.div_lt_self (by omega) (by omega)
        omega
      rw [ih _ hd, charVal_ofNat (Nat.mod_lt _ (by omega))]
      omega

theorem digitsVal_natRepr (n : Nat) : digitsVal (natRepr n) = n :=
  digitsVal_natReprAux (n + 1) n (Nat.lt_succ_self n)

theorem natRepr_inj {a b : Nat} (h : natRepr a = natRepr b) : a = b := by
  have := digitsVal_natRepr a
  rw [h, digitsVal_natRepr] at this
  omega

theorem digitsVal_lt {l : Str} (h : ∀ c ∈ l, isDig c = true) : digitsVal l < 10 ^ l.length := by
  induction l with
  | nil => simp [digitsVal]
  | cons c cs ih =>
    have hc : charVal c ≤ 9 := charVal_le_of_isDig (h c (List.mem_cons_self c cs))
    have hcs : digitsVal cs < 10 ^ cs.length := ih (fun x hx => h x (List.mem_cons_of_mem c hx))
    simp only [digitsVal, List.length_cons, pow_succ]
    nlinarith

theorem natReprAux_length : ∀ fuel n k, n < fuel → n < 10 ^ k → 1 ≤ k →
    (natReprAux fuel n).length ≤ k := by
  intro fuel
  induction fuel with
  | zero => intro n k h; omega
  | succ fuel ih =>
    intro n k h hk h1
    unfold natReprAux
    split
    · simpa using h1
    · next h10 =>
      rw [List.length_append, List.length_singleton]
      have hk2 : 2 ≤ k := by
        by_contra hcon
        have : k = 1 := by omega
        subst this
        simp at hk
        omega
      have hfuel : n / 10 < fuel := by
        have : n / 10 < n := Nat.div_lt_self (by omega) (by omega)
        omega
      have hpow : n / 10 < 10 ^ (k - 1) := by
        rw [Nat.div_lt_iff_lt_mul (by omega)]
        have : 10 ^ (k - 1) * 10 = 10 ^ k := by
          rw [← pow_succ]
          congr 1
          omega
        omega
      have := ih (n / 10) (k - 1) hfuel hpow (by omega)
      omega

theorem natRepr_length_le {n k : Nat} (h : n < 10 ^ k) (hk : 1 ≤ k) :
    (natRepr n).length ≤ k :=
  natReprAux_length (n + 1) n k (Nat.lt_succ_self n) h hk

theorem padStart_length (c : Char) (n : Nat) (l : Str) :
    (padStart c n l).length = max n l.length := by
  simp only [padStart, List.length_append, List.length_replicate]
  omega

theorem padStart_zero_digits {n : Nat} {l : Str} (h : ∀ c ∈ l, isDig c = true) :
    ∀ c ∈ padStart '0' n l, isDig c = true := by
  intro c hc
  rcases List.mem_append.1 hc with h0 | h0
  · have := List.eq_of_mem_replicate h0
    subst this
    decide
  · exact h c h0

/-! ## Lemmas: lower-casing -/

theorem lowerChar_of_isDig {c : Char} (h : isDig c = true) : lowerChar c = c := by
  simp only [isDig, Bool.and_eq_true, decide_eq_true_eq] at h
  unfold lowerChar
  rw [if_neg (by omega)]

theorem lowerChar_underscore : lowerChar '_' = '_' := by decide

theorem lowerStr_append (a b : Str) : lowerStr (a ++ b) = lowerStr a ++ lowerStr b :=
  List.map_append lowerChar a b

theorem lowerStr_fixed {l : Str} (h : ∀ c ∈ l, lowerChar c = c) : lowerStr l = l := by
  unfold lowerStr
  induction l with
  | nil => rfl
  | cons c cs ih =>
    simp only [List.map_cons]
    rw [h c (List.mem_cons_self c cs), ih (fun x hx => h x (List.mem_cons_of_mem c hx))]

/-! ## Lemmas: the retry loop (`#nextAvailableIndex`) -/

theorem candName_nonneg_inj {fd ext : Str} {i j : Int} (hi : 0 ≤ i) (hj : 0 ≤ j)
    (h : candName fd ext i = candName fd ext j) : i = j := by
  unfold candName at h
  rw [if_neg (by omega), if_neg (by omega)] at h
  have h2 := List.append_cancel_left (List.append_cancel_right h)
  have h3 : natRepr (i + 1).toNat = natRepr (j + 1).toNat := by
    injection h2
  have := natRepr_inj h3
  omega

theorem exists_free_cand (set : List Str) (fd ext : Str) (start : Int) :
    ∃ k : Nat, k < set.length + 2 + (-start).toNat ∧ candName fd ext (start + k) ∉ set := by
  by_contra hcon
  push_neg at hcon
  set b : Nat := (-start).toNat + 1 with hb
  have hpos : ∀ j : Nat, 0 ≤ start + (b + j : Nat) := by
    intro j
    have := Int.self_le_toNat (-start)
    omega
  set L : List Str :=
    (List.range (set.length + 1)).map (fun j => candName fd ext (start + (b + j : Nat))) with hL
  have hnodup : L.Nodup := by
    refine List.Nodup.map_on ?_ (List.nodup_range _)
    intro x hx y hy hxy
    have := candName_nonneg_inj (hpos x) (hpos y) hxy
    omega
  have hsub : ∀ x ∈ L, x ∈ set := by
    intro x hx
    rw [hL, List.mem_map] at hx
    obtain ⟨j, hj, rfl⟩ := hx
    rw [List.mem_range] at hj
    have := hcon (b + j) (by omega)
    exact this
  have h1 : L.toFinset.card = L.length := List.toFinset_card_of_nodup hnodup
  have h2 : L.toFinset ⊆ set.toFinset := by
    intro x hx
    rw [List.mem_toFinset] at hx ⊢
    exact hsub x hx
  have h3 := Finset.card_le_card h2
  have h4 := List.toFinset_card_le set
  have h5 : L.length = set.length + 1 := by
    rw [hL, List.length_map, List.length_range]
  omega

theorem nextAvailAux_spec (set : List Str) (fd ext : Str) :
    ∀ fuel (start : Int), (∃ k : Nat, k < fuel ∧ candName fd ext (start + k) ∉ set) →
    ∃ i, nextAvailAux set fd ext fuel start = some i ∧ candName fd ext i ∉ set ∧ start ≤ i := by
  intro fuel
  induction fuel with
  | zero => intro start ⟨k, hk, _⟩; omega
  | succ fuel ih =>
    intro start ⟨k, hk, hfree⟩
    by_cases hmem : candName fd ext start ∈ set
    · have hk0 : k ≠ 0 := by
        rintro rfl
        simp only [Nat.cast_zero, add_zero] at hfree
        exact hfree hmem
      have hstep : ∃ k' : Nat, k' < fuel ∧ candName fd ext (start + 1 + k') ∉ set := by
        refine ⟨k - 1, by omega, ?_⟩
        have : start + 1 + ((k - 1 : Nat) : Int) = start + (k : Nat) := by
          omega
        rw [this]
        exact hfree
      obtain ⟨i, hi, hfree', hle⟩ := ih (start + 1) hstep
      refine ⟨i, ?_, hfree', by omega⟩
      unfold nextAvailAux
      rw [if_pos hmem]
      exact hi
    · refine ⟨start, ?_, hmem, le_refl start⟩
      unfold nextAvailAux
      rw [if_neg hmem]

theorem nextAvailableIndex_spec (set : List Str) (fd ext : Str) (start : Int) :
    ∃ i, nextAvailableIndex set fd ext start = some i ∧ candName fd ext i ∉ set ∧ start ≤ i := by
  obtain ⟨k, hk, hfree⟩ := exists_free_cand set fd ext start
  exact nextAvailAux_spec set fd ext _ start ⟨k, hk, hfree⟩

/-! ## Lemmas: every resolved date has bounded fields -/

theorem daysInMonth_le_31 (y m : Nat) : daysInMonth y m ≤ 31 := by
  unfold daysInMonth
  split
  · split <;> omega
  · split <;> omega

theorem parseField_lt {maxN : Nat} {l r : Str} {v : Nat}
    (h : parseField maxN l = some (v, r)) : v < 10 ^ maxN := by
  simp only [parseField] at h
  split at h
  · exact absurd h (by simp)
  · next hne =>
    injection h with h1
    have hv : v = digitsVal ((l.takeWhile isDig).take maxN) := by
      have := congrArg Prod.fst h1
      simpa using this.symm
    subst hv
    have hdig : ∀ c ∈ (l.takeWhile isDig).take maxN, isDig c = true := by
      intro c hc
      exact List.mem_takeWhile_imp (List.take_subset _ _ hc)
    have hlt := digitsVal_lt hdig
    have hlen : ((l.takeWhile isDig).take maxN).length ≤ maxN := by
      simp [List.length_take]
    calc digitsVal ((l.takeWhile isDig).take maxN) < 10 ^ ((l.takeWhile isDig).take maxN).length := hlt
      _ ≤ 10 ^ maxN := Nat.pow_le_pow_right (by omega) hlen

theorem exifFields_year_lt {l : Str} {y mo d h mi s : Nat} {r : Str}
    (heq : parseExifFields l = some (y, mo, d, h, mi, s, r)) : y < 10000 := by
  simp only [parseExifFields, bind, Option.bind_eq_some, pure] at heq
  obtain ⟨⟨y', r1⟩, h1, heq⟩ := heq
  obtain ⟨r2, h2, heq⟩ := heq
  obtain ⟨⟨mo', r3⟩, h3, heq⟩ := heq
  obtain ⟨r4, h4, heq⟩ := heq
  obtain ⟨⟨d', r5⟩, h5, heq⟩ := heq
  obtain ⟨r6, h6, heq⟩ := heq
  obtain ⟨⟨h', r7⟩, h7, heq⟩ := heq
  obtain ⟨r8, h8, heq⟩ := heq
  obtain ⟨⟨mi', r9⟩, h9, heq⟩ := heq
  obtain ⟨r10, h10, heq⟩ := heq
  obtain ⟨⟨s', r11⟩, h11, heq⟩ := heq
  simp only [Option.some_inj, Prod.mk.injEq] at heq
  obtain ⟨rfl, -⟩ := heq
  exact parseField_lt h1

theorem compactFields_year_lt {l : Str} {y mo d h mi s : Nat} {r : Str}
    (heq : parseCompactFields l = some (y, mo, d, h, mi, s, r)) : y < 10000 := by
  simp only [parseCompactFields, bind, Option.bind_eq_some, pure] at heq
  obtain ⟨⟨y', r1⟩, h1, heq⟩ := heq
  obtain ⟨⟨mo', r2⟩, h2, heq⟩ := heq
  obtain ⟨⟨d', r3⟩, h3, heq⟩ := heq
  obtain ⟨r4, h4, heq⟩ := heq
  obtain ⟨⟨h', r5⟩, h5, heq⟩ := heq
  obtain ⟨⟨mi', r6⟩, h6, heq⟩ := heq
  obtain ⟨⟨s', r7⟩, h7, heq⟩ := heq
  simp only [Option.some_inj, Prod.mk.injEq] at heq
  obtain ⟨rfl, -⟩ := heq
  exact parseField_lt h1

theorem parseExifDate_fieldsOK {l : Str} {f : DateFields}
    (h : parseExifDate l = JSDate.valid f) : FieldsOK f := by
  unfold parseExifDate at h
  split at h
  · exact absurd h (by simp)
  · next y mo d hh mi s r heq =>
    split at h
    · next hcond =>
      obtain ⟨-, hv⟩ := hcond
      injection h with h
      subst h
      simp only [fieldsValid, Bool.and_eq_true, decide_eq_true_eq] at hv
      have hy := exifFields_year_lt heq
      have hd31 := daysInMonth_le_31 y mo
      unfold FieldsOK
      dsimp only
      omega
    · exact absurd h (by simp)

theorem parseCompactDate_fieldsOK {l : Str} {f : DateFields}
    (h : parseCompactDate l = JSDate.valid f) : FieldsOK f := by
  unfold parseCompactDate at h
  split at h
  · exact absurd h (by simp)
  · next y mo d hh mi s r heq =>
    split at h
    · next hcond =>
      obtain ⟨-, hv⟩ := hcond
      injection h with h
      subst h
      simp only [fieldsValid, Bool.and_eq_true, decide_eq_true_eq] at hv
      have hy := compactFields_year_lt heq
      have hd31 := daysInMonth_le_31 y mo
      unfold FieldsOK
      dsimp only
      omega
    · exact absurd h (by simp)

theorem msToFields_ok {ms : Nat} (h1 : 1500000000000 ≤ ms) (h2 : ms < 1600000000000) :
    FieldsOK (msToFields ms) := by
  unfold FieldsOK msToFields civilFromDays
  simp only
  split <;> split <;> omega

theorem firstMatchPos_some {f : Str → Option Str} :
    ∀ {l : Str} {i : Nat} {m : Str}, firstMatchPos f l = some (i, m) → ∃ l', f l' = some m := by
  intro l
  induction l with
  | nil =>
    intro i m h
    simp only [firstMatchPos, Option.map_eq_some'] at h
    obtain ⟨m', hm, h⟩ := h
    obtain ⟨-, rfl⟩ := Prod.mk.injEq .. ▸ h
    exact ⟨[], hm⟩
  | cons c t ih =>
    intro i m h
    unfold firstMatchPos at h
    split at h
    · next m' hm =>
      injection h with h
      obtain ⟨-, rfl⟩ := Prod.mk.injEq .. ▸ h
      exact ⟨c :: t, hm⟩
    · simp only [Option.map_eq_some'] at h
      obtain ⟨⟨i', m'⟩, hm, h⟩ := h
      obtain ⟨-, rfl⟩ := Prod.mk.injEq .. ▸ h
      exact ih hm

theorem epochMatchAt_shape {l m : Str} (h : epochMatchAt l = some m) :
    1500000000000 ≤ digitsVal m ∧ digitsVal m < 1600000000000 := by
  unfold epochMatchAt at h
  split at h
  · next c1 c2 rest =>
    split at h
    · split at h
      · next hcond =>
        injection h with h
        subst h
        obtain ⟨hlen, hdig⟩ := hcond
        have hlt : digitsVal (rest.take 11) < 10 ^ 11 := by
          have := digitsVal_lt (l := rest.take 11) (by
            intro c hc
            exact List.all_eq_true.1 hdig c hc)
          rw [hlen] at this
          exact this
        show 1500000000000 ≤ digitsVal ('1' :: '5' :: rest.take 11) ∧ _
        simp only [digitsVal, List.length_cons, hlen]
        have h1 : charVal '1' = 1 := by decide
        have h5 : charVal '5' = 5 := by decide
        rw [h1, h5]
        norm_num
        omega
      · exact absurd h (by simp)
    · exact absurd h (by simp)
  · exact absurd h (by simp)

theorem getDateFromUnixTimestamp_fieldsOK {file : ParsedPath} {f : DateFields}
    (h : getDateFromUnixTimestamp file = some (JSDate.valid f)) : FieldsOK f := by
  unfold getDateFromUnixTimestamp at h
  dsimp only at h
  split at h
  · exact absurd h (by simp)
  · next i m heq =>
    injection h with h
    injection h with h
    obtain ⟨l', hl'⟩ := firstMatchPos_some heq
    obtain ⟨hlo, hhi⟩ := epochMatchAt_shape hl'
    rw [← h]
    exact msToFields_ok hlo hhi

theorem getDateFromExif_fieldsOK {em : ExifMap} {f : DateFields}
    (h : getDateFromExif em = some (JSDate.valid f)) : FieldsOK f := by
  unfold getDateFromExif at h
  split at h
  · exact absurd h (by simp)
  · injection h with h
    exact parseExifDate_fieldsOK h

theorem getDateFromFileName_fieldsOK {file : ParsedPath} {f : DateFields}
    (h : getDateFromFileName file = some (JSDate.valid f)) : FieldsOK f := by
  unfold getDateFromFileName at h
  dsimp only at h
  split at h
  · exact absurd h (by simp)
  · injection h with h
    exact parseCompactDate_fieldsOK h

theorem getDate_fieldsOK {env : Env} {p : Str} {f : DateFields}
    (h : getDate env p = Except.ok (some (JSDate.valid f))) : FieldsOK f := by
  unfold getDate at h
  dsimp only at h
  by_cases hc : isCorrectFileName (posixParse p) = true
  · rw [if_pos hc] at h
    exact absurd h (by simp)
  · rw [if_neg hc] at h
    split at h
    · exact absurd h (by simp)
    · split at h
      · next d hd =>
        injection h with h
        injection h with h
        rw [h] at hd
        exact getDateFromExif_fieldsOK hd
      · split at h
        · next d hd =>
          injection h with h
          injection h with h
          rw [h] at hd
          exact getDateFromFileName_fieldsOK hd
        · split at h
          · next d hd =>
            injection h with h
            injection h with h
            rw [h] at hd
            exact getDateFromUnixTimestamp_fieldsOK hd
          · exact absurd h (by simp)

/-! ## Lemmas: shape of the formatted timestamp -/

theorem formatDate_shape {f : DateFields} (h : FieldsOK f) :
    ∃ d8 d6 : Str, formatDate (JSDate.valid f) = Except.ok (d8 ++ '_' :: d6) ∧
      d8.length = 8 ∧ d6.length = 6 ∧
      (∀ c ∈ d8, isDig c = true) ∧ (∀ c ∈ d6, isDig c = true) := by
  obtain ⟨hy, hmo1, hmo, hd1, hd, hh, hmi, hs⟩ := h
  refine ⟨padStart '0' 4 (natRepr f.year) ++ padStart '0' 2 (natRepr f.month) ++
    padStart '0' 2 (natRepr f.day),
    padStart '0' 2 (natRepr f.hour) ++ padStart '0' 2 (natRepr f.minute) ++
      padStart '0' 2 (natRepr f.second), rfl, ?_, ?_, ?_, ?_⟩
  · have l1 : (natRepr f.year).length ≤ 4 := natRepr_length_le (by norm_num; omega) (by omega)
    have l2 : (natRepr f.month).length ≤ 2 := natRepr_length_le (by norm_num; omega) (by omega)
    have l3 : (natRepr f.day).length ≤ 2 := natRepr_length_le (by norm_num; omega) (by omega)
    simp only [List.length_append, padStart_length]
    omega
  · have l1 : (natRepr f.hour).length ≤ 2 := natRepr_length_le (by norm_num; omega) (by omega)
    have l2 : (natRepr f.minute).length ≤ 2 := natRepr_length_le (by norm_num; omega) (by omega)
    have l3 : (natRepr f.second).length ≤ 2 := natRepr_length_le (by norm_num; omega) (by omega)
    simp only [List.length_append, padStart_length]
    omega
  · intro c hc
    rcases List.mem_append.1 hc with hc | hc
    · rcases List.mem_append.1 hc with hc | hc
      · exact padStart_zero_digits (natRepr_digits _) c hc
      · exact padStart_zero_digits (natRepr_digits _) c hc
    · exact padStart_zero_digits (natRepr_digits _) c hc
  · intro c hc
    rcases List.mem_append.1 hc with hc | hc
    · rcases List.mem_append.1 hc with hc | hc
      · exact padStart_zero_digits (natRepr_digits _) c hc
      · exact padStart_zero_digits (natRepr_digits _) c hc
    · exact padStart_zero_digits (natRepr_digits _) c hc

theorem formatDate_chars {f : DateFields} {fd : Str}
    (h : formatDate (JSDate.valid f) = Except.ok fd) :
    ∀ c ∈ fd, isDig c = true ∨ c = '_' := by
  injection h with h
  subst h
  intro c hc
  have key : ∀ (n m : Nat), c ∈ padStart '0' n (natRepr m) → isDig c = true :=
    fun n m h => padStart_zero_digits (natRepr_digits _) c h
  rcases List.mem_append.1 hc with hc | hc
  · rcases List.mem_append.1 hc with hc | hc
    · rcases List.mem_append.1 hc with hc | hc
      · exact Or.inl (key _ _ hc)
      · exact Or.inl (key _ _ hc)
    · exact Or.inl (key _ _ hc)
  · rcases List.mem_cons.1 hc with hc | hc
    · exact Or.inr hc
    · rcases List.mem_append.1 hc with hc | hc
      · rcases List.mem_append.1 hc with hc | hc
        · exact Or.inl (key _ _ hc)
        · exact Or.inl (key _ _ hc)
      · exact Or.inl (key _ _ hc)

theorem lowerStr_fd {f : DateFields} {fd : Str}
    (h : formatDate (JSDate.valid f) = Except.ok fd) : lowerStr fd = fd := by
  apply lowerStr_fixed
  intro c hc
  rcases formatDate_chars h c hc with hd | hu
  · exact lowerChar_of_isDig hd
  · rw [hu]
    exact lowerChar_underscore

/-! ## Lemmas: strings with a distinguished last component -/

theorem takeWhile_all {p : Char → Bool} : ∀ {a : Str}, (∀ c ∈ a, p c = true) → a.takeWhile p = a := by
  intro a
  induction a with
  | nil => intro; rfl
  | cons c cs ih =>
    intro h
    rw [List.takeWhile_cons, if_pos (h c (List.mem_cons_self c cs))]
    rw [ih (fun x hx => h x (List.mem_cons_of_mem c hx))]

theorem takeWhile_append_stop {p : Char → Bool} {a b : Str} {x : Char}
    (ha : ∀ c ∈ a, p c = true) (hx : p x = false) : (a ++ x :: b).takeWhile p = a := by
  induction a with
  | nil => simpa [List.takeWhile_cons] using hx
  | cons c cs ih =>
    rw [List.cons_append, List.takeWhile_cons, if_pos (ha c (List.mem_cons_self c cs))]
    rw [ih (fun y hy => ha y (List.mem_cons_of_mem c hy))]

theorem dropWhile_eq_self_of_head {p : Char → Bool} {a b : Str} (hne : a ≠ [])
    (h : ∀ c ∈ a, p c = false) : (a ++ b).dropWhile p = a ++ b := by
  cases a with
  | nil => exact absurd rfl hne
  | cons c cs =>
    rw [List.cons_append, List.dropWhile_cons, if_neg]
    simp [h c (List.mem_cons_self c cs)]

theorem splitOnCharAux_noSep {sep : Char} :
    ∀ {l : Str} (acc : Str), (∀ c ∈ l, c ≠ sep) → splitOnCharAux sep acc l = [acc.reverse ++ l] := by
  intro l
  induction l with
  | nil => intro acc _; simp [splitOnCharAux]
  | cons c cs ih =>
    intro acc h
    rw [splitOnCharAux, if_neg (h c (List.mem_cons_self c cs))]
    rw [ih (c :: acc) (fun x hx => h x (List.mem_cons_of_mem c hx))]
    simp

theorem splitOnChar_noSep {sep : Char} {l : Str} (h : ∀ c ∈ l, c ≠ sep) :
    splitOnChar sep l = [l] := by
  rw [splitOnChar, splitOnCharAux_noSep [] h]
  rfl

theorem splitOnCharAux_append {sep : Char} :
    ∀ (a : Str) (acc b : Str),
      splitOnCharAux sep acc (a ++ sep :: b) = splitOnCharAux sep acc a ++ splitOnChar sep b := by
  intro a
  induction a with
  | nil =>
    intro acc b
    rw [List.nil_append]
    show splitOnCharAux sep acc (sep :: b) = [acc.reverse] ++ splitOnChar sep b
    unfold splitOnCharAux
    rw [if_pos rfl]
    rfl
  | cons c cs ih =>
    intro acc b
    rw [List.cons_append]
    show splitOnCharAux sep acc (c :: (cs ++ sep :: b)) = splitOnCharAux sep acc (c :: cs) ++ _
    rw [splitOnCharAux.eq_def]
    conv_rhs => rw [splitOnCharAux.eq_def]
    by_cases hc : c = sep
    · simp only [if_pos hc]
      rw [ih, List.cons_append]
    · simp only [if_neg hc]
      rw [ih]

theorem splitOnChar_append (sep : Char) (a b : Str) :
    splitOnChar sep (a ++ sep :: b) = splitOnChar sep a ++ splitOnChar sep b :=
  splitOnCharAux_append a [] b

theorem joinWith_concat {sep : Char} :
    ∀ (xs : List Str) (y : Str), xs ≠ [] →
      joinWith sep (xs ++ [y]) = joinWith sep xs ++ sep :: y := by
  intro xs
  induction xs with
  | nil => intro y h; exact absurd rfl h
  | cons x xs ih =>
    intro y _
    cases xs with
    | nil => rfl
    | cons x2 rest =>
      have hih := ih y (by simp)
      rw [List.cons_append] at hih
      show joinWith sep (x :: (x2 :: (rest ++ [y]))) = joinWith sep (x :: x2 :: rest) ++ sep :: y
      rw [joinWith, joinWith]
      rw [hih]
      simp [List.append_assoc]

theorem normAcc_append (ab : Bool) (l1 l2 acc : List Str) :
    normAcc ab acc (l1 ++ l2) = normAcc ab (normAcc ab acc l1) l2 :=
  List.foldl_append _ _ _ _

theorem normAcc_singleton {ab : Bool} {acc : List Str} {s : Str}
    (h0 : s ≠ []) (h1 : s ≠ ['.']) (h2 : s ≠ ['.', '.']) : normAcc ab acc [s] = s :: acc := by
  show normStep ab acc s = s :: acc
  unfold normStep
  rw [if_neg (by simp [h0, h1]), if_neg h2]

theorem extSplit_eq {m r : Str} (hm : m ≠ []) (hmd : ∀ c ∈ m, c ≠ '.') (hrd : ∀ c ∈ r, c ≠ '.') :
    extSplit (m ++ '.' :: r) = (m, '.' :: r) := by
  have hrev : (m ++ '.' :: r).reverse = r.reverse ++ '.' :: m.reverse := by
    rw [List.reverse_append, List.reverse_cons, List.append_assoc]
    rfl
  have htake : ((m ++ '.' :: r).reverse.takeWhile (fun c => c ≠ '.')) = r.reverse := by
    rw [hrev]
    exact takeWhile_append_stop
      (fun c hc => by
        simp only [decide_eq_true_eq]
        exact hrd c (List.mem_reverse.1 hc))
      (by simp)
  have hmlen : 0 < m.length := List.length_pos.2 hm
  unfold extSplit
  dsimp only
  rw [htake]
  rw [if_neg]
  · have hj : (m ++ '.' :: r).length - r.reverse.length - 1 = m.length := by
      simp only [List.length_append, List.length_cons, List.length_reverse]
      omega
    rw [hj]
    have ht : (m ++ '.' :: r).take m.length = m := List.take_left m _
    have hd : (m ++ '.' :: r).drop m.length = '.' :: r := List.drop_left m _
    rw [ht, hd]
  · push_neg
    refine ⟨?_, ?_, ?_⟩
    · simp only [List.length_reverse, List.length_append, List.length_cons]
      omega
    · simp only [List.length_reverse, List.length_append, List.length_cons]
      omega
    · cases m with
      | nil => exact absurd rfl hm
      | cons c cs =>
        intro hcon
        rw [List.cons_append] at hcon
        have : c = '.' := by
          have := congrArg (fun l => l.headD ' ') hcon
          simpa using this
        exact hmd c (List.mem_cons_self c cs) this

theorem dropWhile_eq_self {p : Char → Bool} {a : Str} (hne : a ≠ [])
    (h : ∀ c ∈ a, p c = false) : a.dropWhile p = a := by
  cases a with
  | nil => exact absurd rfl hne
  | cons c cs =>
    rw [List.dropWhile_cons, if_neg]
    simp [h c (List.mem_cons_self c cs)]

theorem stripB {t n : Str} (hn : n ≠ []) (hall : ∀ c ∈ n, c ≠ '/')
    (ht : t = n ∨ ∃ Z, t = Z ++ '/' :: n) :
    ((t.reverse.dropWhile (fun c => c = '/')).takeWhile (fun c => c ≠ '/')).reverse = n := by
  have hrevne : n.reverse ≠ [] := by simpa using hn
  have hrevall : ∀ c ∈ n.reverse, (fun c => decide (c = '/')) c = false := by
    intro c hc
    simp only [decide_eq_false_iff_not]
    exact hall c (List.mem_reverse.1 hc)
  have htakeall : ∀ c ∈ n.reverse, (fun c => decide (c ≠ '/')) c = true := by
    intro c hc
    simp only [decide_eq_true_eq]
    exact hall c (List.mem_reverse.1 hc)
  rcases ht with heq | ⟨Z, heq⟩
  · rw [heq, dropWhile_eq_self hrevne hrevall, takeWhile_all htakeall, List.reverse_reverse]
  · have hrev : (Z ++ '/' :: n).reverse = n.reverse ++ '/' :: Z.reverse := by
      rw [List.reverse_append, List.reverse_cons, List.append_assoc]
      rfl
    rw [heq, hrev, dropWhile_eq_self_of_head hrevne hrevall]
    rw [takeWhile_append_stop htakeall (by simp), List.reverse_reverse]

theorem posixParse_base_ext {p n : Str} (hn : n ≠ []) (hall : ∀ c ∈ n, c ≠ '/')
    (hp : p = n ∨ ∃ X, p = X ++ '/' :: n) :
    (posixParse p).base = n ∧ (posixParse p).ext = (extSplit n).2 ∧
    (posixParse p).name = (extSplit n).1 := by
  have hp0 : p ≠ [] := by
    rcases hp with heq | ⟨X, heq⟩
    · rw [heq]; exact hn
    · rw [heq]; simp
  unfold posixParse
  rw [if_neg hp0]
  dsimp only
  by_cases habs : p.head? = some '/'
  · rw [if_pos habs]
    have ht : p.drop 1 = n ∨ ∃ Z, p.drop 1 = Z ++ '/' :: n := by
      rcases hp with heq | ⟨X, heq⟩
      · exfalso
        rw [heq] at habs
        cases n with
        | nil => exact hn rfl
        | cons c cs =>
          simp only [List.head?_cons, Option.some_inj] at habs
          exact hall c (List.mem_cons_self c cs) habs
      · rw [heq]
        cases X with
        | nil => exact Or.inl (by simp)
        | cons x X' => exact Or.inr ⟨X', by simp⟩
    rw [stripB hn hall ht]
    exact ⟨rfl, rfl, rfl⟩
  · rw [if_neg habs]
    rw [stripB hn hall hp]
    exact ⟨rfl, rfl, rfl⟩

theorem normalizeP_noSlash {n : Str} (hn : n ≠ []) (hall : ∀ c ∈ n, c ≠ '/')
    (hdot : n ≠ ['.']) (hdd : n ≠ ['.', '.']) : normalizeP n = n := by
  have habs : ¬(n.head? = some '/') := by
    cases n with
    | nil => exact absurd rfl hn
    | cons c cs =>
      simp only [List.head?_cons, Option.some_inj]
      exact hall c (List.mem_cons_self c cs)
  have htr : ¬(n.getLast? = some '/') := by
    intro hcon
    rw [List.getLast?_eq_getLast n hn] at hcon
    injection hcon with hcon
    exact hall _ (List.getLast_mem hn) hcon
  unfold normalizeP
  rw [if_neg hn]
  dsimp only
  rw [splitOnChar_noSep hall, normAcc_singleton hn hdot hdd]
  rw [List.reverse_cons, List.reverse_nil, List.nil_append]
  show (if joinWith '/' [n] = [] then _ else _) = n
  rw [if_neg (by simpa [joinWith] using hn)]
  rw [if_neg habs, if_neg htr, List.append_nil]
  rfl

theorem normalizeP_append {d n : Str} (_hd : d ≠ []) (hn : n ≠ []) (hall : ∀ c ∈ n, c ≠ '/')
    (hdot : n ≠ ['.']) (hdd : n ≠ ['.', '.']) :
    normalizeP (d ++ '/' :: n) = n ∨ ∃ X, normalizeP (d ++ '/' :: n) = X ++ '/' :: n := by
  have hp0 : d ++ '/' :: n ≠ [] := by simp
  have htr : ¬((d ++ '/' :: n).getLast? = some '/') := by
    have hnl : n.getLast? = some (n.getLast hn) := List.getLast?_eq_getLast n hn
    have h2 : ('/' :: n).getLast? = some (n.getLast hn) := by
      show ((['/'] ++ n).getLast?) = _
      rw [List.getLast?_append, hnl]
      rfl
    have h1 : (d ++ '/' :: n).getLast? = some (n.getLast hn) := by
      rw [List.getLast?_append, h2]
      rfl
    rw [h1]
    intro hcon
    injection hcon with hcon
    exact hall _ (List.getLast_mem hn) hcon
  unfold normalizeP
  rw [if_neg hp0]
  dsimp only
  rw [splitOnChar_append, splitOnChar_noSep hall, normAcc_append, normAcc_singleton hn hdot hdd]
  rw [List.reverse_cons]
  set ab := !decide ((d ++ '/' :: n).head? = some '/') with hab
  set D := normAcc ab [] (splitOnChar '/' d) with hD
  by_cases hDnil : D.reverse = []
  · rw [hDnil, List.nil_append]
    show (if joinWith '/' [n] = [] then _ else _) = n ∨ _
    rw [if_neg (by simpa [joinWith] using hn)]
    rw [if_neg htr, List.append_nil]
    by_cases habs : (d ++ '/' :: n).head? = some '/'
    · rw [if_pos habs]
      exact Or.inr ⟨[], by rw [List.nil_append]; rfl⟩
    · rw [if_neg habs]
      exact Or.inl rfl
  · rw [joinWith_concat D.reverse n hDnil]
    show (if joinWith '/' D.reverse ++ '/' :: n = [] then _ else _) = n ∨ _
    rw [if_neg (by simp)]
    rw [if_neg htr, List.append_nil]
    by_cases habs : (d ++ '/' :: n).head? = some '/'
    · rw [if_pos habs]
      exact Or.inr ⟨'/' :: joinWith '/' D.reverse, rfl⟩
    · rw [if_neg habs]
      exact Or.inr ⟨joinWith '/' D.reverse, rfl⟩

theorem posixJoin_parse {d n : Str} (hn : n ≠ []) (hall : ∀ c ∈ n, c ≠ '/')
    (hdot : n ≠ ['.']) (hdd : n ≠ ['.', '.']) :
    (posixParse (posixJoin d n)).base = n ∧ (posixParse (posixJoin d n)).ext = (extSplit n).2 ∧
    (posixParse (posixJoin d n)).name = (extSplit n).1 := by
  by_cases hd : d = []
  · subst hd
    rw [posixJoin, if_pos rfl, if_neg hn, normalizeP_noSlash hn hall hdot hdd]
    exact posixParse_base_ext hn hall (Or.inl rfl)
  · rw [posixJoin, if_neg hd, if_neg hn]
    rcases normalizeP_append hd hn hall hdot hdd with heq | ⟨X, heq⟩
    · rw [heq]
      exact posixParse_base_ext hn hall (Or.inl rfl)
    · rw [heq]
      exact posixParse_base_ext hn hall (Or.inr ⟨X, rfl⟩)

/-! ## Lemmas: classifier and extension shape -/

theorem isDig_ne_slash {c : Char} (h : isDig c = true) : c ≠ '/' := by
  intro hc
  subst hc
  exact absurd h (by decide)

theorem isDig_ne_dot {c : Char} (h : isDig c = true) : c ≠ '.' := by
  intro hc
  subst hc
  exact absurd h (by decide)

theorem isImage_ext_nil {file : ParsedPath} (hext : file.ext = []) : isImage file = false := by
  unfold isImage
  rw [hext]
  decide

theorem isVideo_ext_nil {file : ParsedPath} (hext : file.ext = []) : isVideo file = false := by
  unfold isVideo
  rw [hext]
  decide

theorem media_ext_ne_nil {file : ParsedPath} (h : (isImage file || isVideo file) = true) :
    file.ext ≠ [] := by
  intro hext
  rw [isImage_ext_nil hext, isVideo_ext_nil hext] at h
  exact absurd h (by decide)

theorem isImage_congr {f g : ParsedPath} (h : f.ext = g.ext) : isImage f = isImage g := by
  unfold isImage
  rw [h]

theorem isVideo_congr {f g : ParsedPath} (h : f.ext = g.ext) : isVideo f = isVideo g := by
  unfold isVideo
  rw [h]

theorem dropWhile_head_false {p : Char → Bool} :
    ∀ {l : Str} {c : Char} {cs : Str}, l.dropWhile p = c :: cs → p c = false := by
  intro l
  induction l with
  | nil => intro c cs h; simp [List.dropWhile] at h
  | cons a l ih =>
    intro c cs h
    rw [List.dropWhile_cons] at h
    split at h
    · exact ih h
    · next hpa =>
      injection h with h1 _
      subst h1
      simpa using hpa

theorem extSplit_snd_shape (b : Str) :
    (extSplit b).2 = [] ∨ ∃ r, (extSplit b).2 = '.' :: r ∧ ∀ c ∈ r, c ≠ '.' := by
  unfold extSplit
  dsimp only
  split
  · exact Or.inl rfl
  · next hcond =>
    push_neg at hcond
    obtain ⟨hlen, -, -⟩ := hcond
    have hsplit : b.reverse.takeWhile (fun c => c ≠ '.') ++
        b.reverse.dropWhile (fun c => c ≠ '.') = b.reverse :=
      List.takeWhile_append_dropWhile _ _
    have hwne : b.reverse.dropWhile (fun c => c ≠ '.') ≠ [] := by
      intro hcon
      rw [hcon, List.append_nil] at hsplit
      rw [hsplit] at hlen
      simp at hlen
    obtain ⟨wh, wt, hw⟩ := List.exists_cons_of_ne_nil hwne
    have hwh : wh = '.' := by simpa using dropWhile_head_false hw
    subst hwh
    have hb : b = wt.reverse ++ '.' :: (b.reverse.takeWhile (fun c => c ≠ '.')).reverse := by
      conv_lhs => rw [← List.reverse_reverse b, ← hsplit, hw]
      rw [List.reverse_append, List.reverse_cons, List.append_assoc]
      rfl
    have hblen := congrArg List.length hb
    simp only [List.length_append, List.length_cons, List.length_reverse] at hblen
    refine Or.inr ⟨(b.reverse.takeWhile (fun c => c ≠ '.')).reverse, ?_, ?_⟩
    · have hj : b.length - (b.reverse.takeWhile (fun c => c ≠ '.')).length - 1 =
          wt.reverse.length := by
        simp only [List.length_reverse]
        omega
      show b.drop (b.length - (b.reverse.takeWhile (fun c => c ≠ '.')).length - 1) =
        '.' :: (b.reverse.takeWhile (fun c => c ≠ '.')).reverse
      rw [hj]
      conv_lhs => rw [hb]
      rw [List.drop_left]
    · intro c hc
      have := List.mem_takeWhile_imp (List.mem_reverse.1 hc)
      simpa using this

theorem extSplit_snd_subset (b : Str) : ∀ c ∈ (extSplit b).2, c ∈ b := by
  unfold extSplit
  dsimp only
  split
  · intro c hc
    simp at hc
  · intro c hc
    exact List.drop_subset _ b hc

theorem posixParse_base_noSlash (p : Str) : ∀ c ∈ (posixParse p).base, c ≠ '/' := by
  unfold posixParse
  split
  · intro c hc
    simp at hc
  · dsimp only
    intro c hc
    have := List.mem_takeWhile_imp (List.mem_reverse.1 hc)
    simpa using this

theorem posixParse_ext_eq (p : Str) :
    (posixParse p).ext = (extSplit (posixParse p).base).2 := by
  unfold posixParse
  split
  · show ([] : Str) = (extSplit []).2
    decide
  · rfl

theorem posixParse_ext_shape {p : Str} (hne : (posixParse p).ext ≠ []) :
    ∃ r, (posixParse p).ext = '.' :: r ∧ (∀ c ∈ r, c ≠ '.') ∧
      ∀ c ∈ (posixParse p).ext, c ≠ '/' := by
  have hext := posixParse_ext_eq p
  rcases extSplit_snd_shape (posixParse p).base with h0 | ⟨r, hr, hrd⟩
  · rw [hext] at hne
    exact absurd h0 hne
  · refine ⟨r, by rw [hext, hr], hrd, ?_⟩
    intro c hc
    rw [hext] at hc
    exact posixParse_base_noSlash p c (extSplit_snd_subset _ c hc)

/-! ## Lemmas: canonical output names -/

theorem isPrefixOf_self : ∀ (l : Str), l.isPrefixOf l = true := by
  intro l
  induction l with
  | nil => rfl
  | cons c cs ih => simp [List.isPrefixOf, ih]

theorem splitHeadAux_of (r : Str) :
    ∀ (m acc : Str), (∀ c ∈ m, c ≠ '.') →
      splitHeadAux ('.' :: r) acc (m ++ '.' :: r) = acc.reverse ++ m := by
  intro m
  induction m with
  | nil =>
    intro acc _
    rw [List.nil_append, splitHeadAux, if_pos]
    · simp
    · exact isPrefixOf_self ('.' :: r)
  | cons c m' ih =>
    intro acc h
    rw [List.cons_append, splitHeadAux, if_neg]
    · rw [ih (c :: acc) (fun x hx => h x (List.mem_cons_of_mem c hx))]
      simp
    · show ¬(('.' :: r).isPrefixOf (c :: (m' ++ '.' :: r)) = true)
      have hc : c ≠ '.' := h c (List.mem_cons_self c m')
      simp only [List.isPrefixOf, Bool.and_eq_true, beq_iff_eq]
      intro hcon
      exact hc hcon.1.symm

theorem jsSplitHead_of {m r : Str} (hm : ∀ c ∈ m, c ≠ '.') :
    jsSplitHead ('.' :: r) (m ++ '.' :: r) = m := by
  rw [jsSplitHead, if_neg (by simp)]
  have := splitHeadAux_of r m [] hm
  simpa using this

theorem tsMatchAt_canon {d8 d6 tail : Str} (h8 : d8.length = 8) (hd8 : ∀ c ∈ d8, isDig c = true)
    (h6 : d6.length = 6) (hd6 : ∀ c ∈ d6, isDig c = true)
    (htail : tail = [] ∨ ∃ rs, tail = '_' :: rs) :
    ∃ mm, tsMatchAt (d8 ++ '_' :: (d6 ++ tail)) = some mm := by
  unfold tsMatchAt
  dsimp only
  have htake : (d8 ++ '_' :: (d6 ++ tail)).take 8 = d8 := by
    rw [← h8]
    exact List.take_left d8 _
  have hdrop : (d8 ++ '_' :: (d6 ++ tail)).drop 8 = '_' :: (d6 ++ tail) := by
    rw [← h8]
    exact List.drop_left d8 _
  rw [htake, hdrop]
  rw [if_pos ⟨h8, List.all_eq_true.2 hd8⟩]
  have hrun : (d6 ++ tail).takeWhile isDig = d6 := by
    rcases htail with h1 | ⟨rs, h1⟩
    · rw [h1, List.append_nil]
      exact takeWhile_all hd6
    · rw [h1]
      exact takeWhile_append_stop hd6 (by decide)
  dsimp only
  rw [if_pos rfl, hrun]
  rw [if_pos (by omega)]
  exact ⟨_, rfl⟩

theorem firstMatchPos_of_here {f : Str → Option Str} {l m : Str} (h : f l = some m) :
    firstMatchPos f l = some (0, m) := by
  cases l with
  | nil =>
    show (f []).map (fun m => (0, m)) = some (0, m)
    rw [h]
    rfl
  | cons c t =>
    unfold firstMatchPos
    rw [h]

theorem isCorrectFileName_canonical {file : ParsedPath} {d8 d6 idxStr r : Str}
    (hbase : file.base = ((d8 ++ '_' :: d6) ++ idxStr) ++ '.' :: r)
    (hext : file.ext = '.' :: r)
    (h8 : d8.length = 8) (hd8 : ∀ c ∈ d8, isDig c = true)
    (h6 : d6.length = 6) (hd6 : ∀ c ∈ d6, isDig c = true)
    (hidx : idxStr = [] ∨ ∃ k : Nat, idxStr = '_' :: natRepr k) :
    isCorrectFileName file = true := by
  unfold isCorrectFileName
  dsimp only
  rw [hbase, hext]
  have hmdot : ∀ c ∈ (d8 ++ '_' :: d6) ++ idxStr, c ≠ '.' := by
    intro c hc
    rcases List.mem_append.1 hc with hc | hc
    · rcases List.mem_append.1 hc with hc | hc
      · exact isDig_ne_dot (hd8 c hc)
      · rcases List.mem_cons.1 hc with rfl | hc
        · decide
        · exact isDig_ne_dot (hd6 c hc)
    · rcases hidx with h1 | ⟨k, h1⟩
      · rw [h1] at hc
        simp at hc
      · rw [h1] at hc
        rcases List.mem_cons.1 hc with rfl | hc
        · decide
        · exact isDig_ne_dot (natRepr_digits k c hc)
  rw [jsSplitHead_of hmdot]
  have hre : (d8 ++ '_' :: d6) ++ idxStr = d8 ++ '_' :: (d6 ++ idxStr) := by
    rw [List.append_assoc]
    rfl
  rw [hre]
  have htail : idxStr = [] ∨ ∃ rs, idxStr = '_' :: rs := by
    rcases hidx with h1 | ⟨k, h1⟩
    · exact Or.inl h1
    · exact Or.inr ⟨natRepr k, h1⟩
  obtain ⟨mm, hmm⟩ := tsMatchAt_canon h8 hd8 h6 hd6 htail
  rw [firstMatchPos_of_here hmm]
  simp

/-! ## Lemmas: structure of one `replace` call -/

theorem getDate_of_correct {env : Env} {p : Str}
    (h : isCorrectFileName (posixParse p) = true) : getDate env p = Except.ok none := by
  unfold getDate
  dsimp only
  rw [if_pos h]

theorem replaceFn_of_correct {env : Env} {st : EngineState} {p : Str}
    (h : isCorrectFileName (posixParse p) = true) : replaceFn env st p = ⟨p, st, none, []⟩ := by
  unfold replaceFn
  dsimp only
  have hnone : (if (isImage (posixParse p) || isVideo (posixParse p)) = true then
      match getDate env p with
      | Except.ok d => d
      | Except.error _ => none
    else none) = none := by
    split
    · rw [getDate_of_correct h]
    · rfl
  rw [hnone]

theorem assignName_out (env : Env) (st : EngineState) (file : ParsedPath) (filePath fd : Str) :
    ∃ idxStr : Str, (idxStr = [] ∨ ∃ k : Nat, idxStr = '_' :: natRepr k) ∧
      (assignName env st file filePath fd).out = posixJoin file.dir ((fd ++ idxStr) ++ file.ext) ∧
      (assignName env st file filePath fd).em =
        some ⟨file.dir, fd, lowerStr file.ext, (fd ++ idxStr) ++ file.ext,
          (fd ++ idxStr) ++ lowerStr file.ext⟩ := by
  unfold assignName
  dsimp only
  split
  · next heq =>
    obtain ⟨i, hsome, -, -⟩ := nextAvailableIndex_spec _ _ _ _
    rw [hsome] at heq
    exact absurd heq (by simp)
  · next nextIdx heq =>
    refine ⟨if nextIdx < 0 then [] else '_' :: natRepr (nextIdx + 1).toNat, ?_, rfl, rfl⟩
    by_cases hlt : nextIdx < 0
    · rw [if_pos hlt]
      exact Or.inl rfl
    · rw [if_neg hlt]
      exact Or.inr ⟨(nextIdx + 1).toNat, rfl⟩

theorem replaceFn_shape (env : Env) (st : EngineState) (p : Str) :
    (replaceFn env st p = ⟨p, st, none, []⟩) ∨
    (∃ f fd idxStr,
      getDate env p = Except.ok (some (JSDate.valid f)) ∧
      formatDate (JSDate.valid f) = Except.ok fd ∧
      (isImage (posixParse p) || isVideo (posixParse p)) = true ∧
      (idxStr = [] ∨ ∃ k : Nat, idxStr = '_' :: natRepr k) ∧
      (replaceFn env st p).out =
        posixJoin (posixParse p).dir ((fd ++ idxStr) ++ (posixParse p).ext) ∧
      (replaceFn env st p).em = some ⟨(posixParse p).dir, fd, lowerStr (posixParse p).ext,
        (fd ++ idxStr) ++ (posixParse p).ext, (fd ++ idxStr) ++ lowerStr (posixParse p).ext⟩) := by
  unfold replaceFn
  dsimp only
  split
  · exact Or.inl rfl
  · next date heq =>
    have hmedia : (isImage (posixParse p) || isVideo (posixParse p)) = true := by
      by_cases hc : (isImage (posixParse p) || isVideo (posixParse p)) = true
      · exact hc
      · rw [if_neg hc] at heq
        exact absurd heq (by simp)
    rw [if_pos hmedia] at heq
    cases hgd : getDate env p with
    | error e =>
      rw [hgd] at heq
      exact absurd heq (by simp)
    | ok d =>
      rw [hgd] at heq
      have hd : d = some date := heq
      subst hd
      split
      · exact Or.inl rfl
      · next fd hfmt =>
        cases date with
        | invalid => exact absurd hfmt (by simp [formatDate])
        | valid f =>
          obtain ⟨idxStr, hidx, hout, hem⟩ := assignName_out env st (posixParse p) p fd
          exact Or.inr ⟨f, fd, idxStr, rfl, hfmt, hmedia, hidx, hout, hem⟩

/-! ## Lemmas: idempotence of `replace` -/

theorem replace_idem_core (env : Env) (st : EngineState) (p : Str) :
    (replaceFn env (replaceFn env st p).st (replaceFn env st p).out).out =
      (replaceFn env st p).out := by
  rcases replaceFn_shape env st p with heq | ⟨f, fd, idxStr, hgd, hfmt, hmedia, hidx, hout, hem⟩
  · rw [heq]
    dsimp only
    rw [heq]
  · have hOK := getDate_fieldsOK hgd
    obtain ⟨d8, d6, hfd, h8, h6, hd8, hd6⟩ := formatDate_shape hOK
    rw [hfmt] at hfd
    injection hfd with hfd
    subst hfd
    have hne : (posixParse p).ext ≠ [] := media_ext_ne_nil hmedia
    obtain ⟨r, hext0, hrdot, hslash⟩ := posixParse_ext_shape hne
    have hchars : ∀ c ∈ (d8 ++ '_' :: d6) ++ idxStr, isDig c = true ∨ c = '_' := by
      intro c hc
      rcases List.mem_append.1 hc with hc | hc
      · rcases List.mem_append.1 hc with hc | hc
        · exact Or.inl (hd8 c hc)
        · rcases List.mem_cons.1 hc with rfl | hc
          · exact Or.inr rfl
          · exact Or.inl (hd6 c hc)
      · rcases hidx with h1 | ⟨k, h1⟩
        · rw [h1] at hc
          simp at hc
        · rw [h1] at hc
          rcases List.mem_cons.1 hc with rfl | hc
          · exact Or.inr rfl
          · exact Or.inl (natRepr_digits k c hc)
    have hmdot : ∀ c ∈ (d8 ++ '_' :: d6) ++ idxStr, c ≠ '.' := by
      intro c hc
      rcases hchars c hc with h1 | h1
      · exact isDig_ne_dot h1
      · rw [h1]
        decide
    have hmslash : ∀ c ∈ (d8 ++ '_' :: d6) ++ idxStr, c ≠ '/' := by
      intro c hc
      rcases hchars c hc with h1 | h1
      · exact isDig_ne_slash h1
      · rw [h1]
        decide
    have hmne : (d8 ++ '_' :: d6) ++ idxStr ≠ [] := by
      intro hcon
      have := congrArg List.length hcon
      simp only [List.length_append, List.length_cons, List.length_nil, h8] at this
      omega
    rw [hext0] at hout hslash
    have hn : ((d8 ++ '_' :: d6) ++ idxStr) ++ '.' :: r ≠ [] := by simp
    have hallN : ∀ c ∈ ((d8 ++ '_' :: d6) ++ idxStr) ++ '.' :: r, c ≠ '/' := by
      intro c hc
      rcases List.mem_append.1 hc with hc | hc
      · exact hmslash c hc
      · exact hslash c hc
    have hdot : ((d8 ++ '_' :: d6) ++ idxStr) ++ '.' :: r ≠ ['.'] := by
      intro hcon
      have := congrArg List.length hcon
      simp only [List.length_append, List.length_cons, List.length_singleton, List.length_nil,
        h8, h6] at this
      omega
    have hdd : ((d8 ++ '_' :: d6) ++ idxStr) ++ '.' :: r ≠ ['.', '.'] := by
      intro hcon
      have := congrArg List.length hcon
      simp only [List.length_append, List.length_cons, List.length_singleton, List.length_nil,
        h8, h6] at this
      omega
    obtain ⟨hbase2, hext2, -⟩ :=
      posixJoin_parse (d := (posixParse p).dir) hn hallN hdot hdd
    have hext2' :
        (posixParse (posixJoin (posixParse p).dir (((d8 ++ '_' :: d6) ++ idxStr) ++ '.' :: r))).ext =
          '.' :: r := by
      rw [hext2, extSplit_eq hmne hmdot hrdot]
    have hcanon :
        isCorrectFileName
          (posixParse (posixJoin (posixParse p).dir (((d8 ++ '_' :: d6) ++ idxStr) ++ '.' :: r))) =
          true :=
      isCorrectFileName_canonical hbase2 hext2' h8 hd8 h6 hd6 hidx
    have h2 : replaceFn env (replaceFn env st p).st (replaceFn env st p).out =
        ⟨(replaceFn env st p).out, (replaceFn env st p).st, none, []⟩ := by
      apply replaceFn_of_correct
      rw [hout]
      exact hcanon
    rw [h2]

/-! ## Lemmas: the directory cache -/

theorem fupd_self {α : Type} (m : Str → Option α) (k : Str) (v : α) : fupd m k v k = some v := by
  simp [fupd]

theorem fupd_other {α : Type} (m : Str → Option α) (k : Str) (v : α) {x : Str} (h : x ≠ k) :
    fupd m k v x = m x := by
  simp [fupd, h]

theorem mem_setAdd {s : List Str} {x y : Str} : y ∈ setAdd s x ↔ y ∈ s ∨ y = x := by
  unfold setAdd
  split
  · next hx =>
    constructor
    · exact Or.inl
    · rintro (h | rfl)
      · exact h
      · exact hx
  · simp

theorem mem_dedupAcc : ∀ {l acc : List Str} {x : Str}, x ∈ dedupAcc acc l ↔ x ∈ acc ∨ x ∈ l := by
  intro l
  induction l with
  | nil =>
    intro acc x
    simp [dedupAcc]
  | cons y ys ih =>
    intro acc x
    by_cases hy : y ∈ acc
    · rw [dedupAcc, if_pos hy, ih]
      constructor
      · rintro (h | h)
        · exact Or.inl h
        · exact Or.inr (List.mem_cons_of_mem y h)
      · rintro (h | h)
        · exact Or.inl h
        · rcases List.mem_cons.1 h with rfl | h
          · exact Or.inl hy
          · exact Or.inr h
    · rw [dedupAcc, if_neg hy, ih]
      constructor
      · rintro (h | h)
        · rcases List.mem_cons.1 h with rfl | h
          · exact Or.inr (List.mem_cons_self x ys)
          · exact Or.inl h
        · exact Or.inr (List.mem_cons_of_mem y h)
      · rintro (h | h)
        · exact Or.inl (List.mem_cons_of_mem y h)
        · rcases List.mem_cons.1 h with rfl | h
          · exact Or.inl (List.mem_cons_self x acc)
          · exact Or.inr h

theorem getDirCache_loaded (env : Env) (st : EngineState) (dir : Str) :
    (getDirCache env st dir).st.dirCache dir = some (getDirCache env st dir).set := by
  unfold getDirCache
  split
  · next s hs => exact hs
  · dsimp only
    exact fupd_self _ _ _

theorem getDirCache_listing (env : Env) (st : EngineState) (dir : Str)
    (hL : cacheHasListing env st) :
    ∀ m ∈ listingNames env dir, lowerStr m ∈ (getDirCache env st dir).set := by
  unfold getDirCache
  split
  · next s hs =>
    intro m hm
    exact hL dir s hs m hm
  · intro m hm
    dsimp only
    rw [mem_dedupAcc]
    exact Or.inr (List.mem_map_of_mem lowerStr hm)

theorem getDirCache_hit (env : Env) (st : EngineState) (dir : Str) {s0 : List Str}
    (h : st.dirCache dir = some s0) :
    (getDirCache env st dir).set = s0 ∧ (getDirCache env st dir).st = st ∧
    (getDirCache env st dir).listed = [] := by
  unfold getDirCache
  split
  · next s hs =>
    rw [h] at hs
    injection hs with hs
    exact ⟨hs.symm, rfl, rfl⟩
  · next hs =>
    rw [h] at hs
    simp at hs

theorem getDirCache_other (env : Env) (st : EngineState) (dir : Str) {d' : Str} (h : d' ≠ dir) :
    (getDirCache env st dir).st.dirCache d' = st.dirCache d' := by
  unfold getDirCache
  split
  · rfl
  · dsimp only
    exact fupd_other _ _ _ h

theorem getDirCache_indexMap (env : Env) (st : EngineState) (dir : Str) :
    (getDirCache env st dir).st.indexMap = st.indexMap := by
  unfold getDirCache
  split
  · rfl
  · rfl

theorem getDirCache_listed (env : Env) (st : EngineState) (dir : Str) :
    (getDirCache env st dir).listed = [] ∨
    ((getDirCache env st dir).listed = [dir] ∧ st.dirCache dir = none) := by
  unfold getDirCache
  split
  · exact Or.inl rfl
  · next hs => exact Or.inr ⟨rfl, hs⟩

theorem getDirCache_dirCache_mono (env : Env) (st : EngineState) (dir : Str) {d : Str}
    {s : List Str} (h : st.dirCache d = some s) :
    (getDirCache env st dir).st.dirCache d = some s := by
  by_cases hd : d = dir
  · rw [hd] at h ⊢
    obtain ⟨-, hst, -⟩ := getDirCache_hit env st dir h
    rw [hst]
    exact h
  · rw [getDirCache_other env st dir hd]
    exact h

theorem candName_eq (fd extL : Str) (i : Int) :
    candName fd extL i =
      (fd ++ (if i < 0 then [] else '_' :: natRepr (i + 1).toNat)) ++ extL := by
  unfold candName
  by_cases h : i < 0
  · rw [if_pos h, if_pos h, List.append_nil]
  · rw [if_neg h, if_neg h]

/-- Everything one assignment does to the caches: the emission it returns, the
known-name set it checked the candidate against, and the successor state. -/
theorem assignName_spec (env : Env) (st : EngineState) (file : ParsedPath) (filePath fd : Str)
    (hL : cacheHasListing env st) :
    ∃ (e : Emission) (s2 : List Str) (idxStr : Str),
      (assignName env st file filePath fd).em = some e ∧
      e.dir = file.dir ∧
      (idxStr = [] ∨ ∃ k : Nat, idxStr = '_' :: natRepr k) ∧
      e.name = (fd ++ idxStr) ++ file.ext ∧
      e.nameLower = (fd ++ idxStr) ++ lowerStr file.ext ∧
      e.nameLower ∉ s2 ∧
      (∀ m ∈ listingNames env file.dir, lowerStr m ∈ s2) ∧
      (∀ s0, st.dirCache file.dir = some s0 → ∀ x ∈ s0, x ∈ s2) ∧
      (assignName env st file filePath fd).st.dirCache file.dir = some (setAdd s2 e.nameLower) ∧
      (∀ d', d' ≠ file.dir → (assignName env st file filePath fd).st.dirCache d' = st.dirCache d') ∧
      ((assignName env st file filePath fd).listed = [] ∨
        ((assignName env st file filePath fd).listed = [file.dir] ∧
          st.dirCache file.dir = none)) := by
  unfold assignName
  dsimp only
  cases hik : st.indexMap (posixJoin file.dir (fd ++ lowerStr file.ext)) with
  | some i0 =>
    dsimp only
    split
    · next heq =>
      obtain ⟨i, hsome, -, -⟩ := nextAvailableIndex_spec _ _ _ _
      rw [hsome] at heq
      exact absurd heq (by simp)
    · next nextIdx heq =>
      obtain ⟨i, hsome, hfree, -⟩ := nextAvailableIndex_spec _ _ _ _
      rw [hsome] at heq
      injection heq with heq
      subst heq
      dsimp only
      rw [candName_eq] at hfree
      have h2loaded := getDirCache_loaded env st file.dir
      have hhit3 := getDirCache_hit env
        { (getDirCache env st file.dir).st with
          indexMap := fupd (getDirCache env st file.dir).st.indexMap
            (posixJoin file.dir (fd ++ lowerStr file.ext)) i }
        file.dir
        (show _ = some (getDirCache env st file.dir).set from h2loaded)
      refine ⟨_, (getDirCache env st file.dir).set,
        if i < 0 then [] else '_' :: natRepr (i + 1).toNat, rfl, rfl, ?_, rfl, rfl,
        hfree, getDirCache_listing env st file.dir hL, ?_, ?_, ?_, ?_⟩
      · by_cases hlt : i < 0
        · rw [if_pos hlt]
          exact Or.inl rfl
        · rw [if_neg hlt]
          exact Or.inr ⟨(i + 1).toNat, rfl⟩
      · intro s0 h0 x hx
        obtain ⟨hset, -, -⟩ := getDirCache_hit env st file.dir h0
        rw [hset]
        exact hx
      · rw [hhit3.1, fupd_self]
      · intro d' hd'
        rw [fupd_other _ _ _ hd', hhit3.2.1]
        show (getDirCache env st file.dir).st.dirCache d' = st.dirCache d'
        exact getDirCache_other env st file.dir hd'
      · rw [hhit3.2.2, List.append_nil, List.nil_append]
        exact getDirCache_listed env st file.dir
  | none =>
    dsimp only
    split
    · next heq =>
      obtain ⟨i, hsome, -, -⟩ := nextAvailableIndex_spec _ _ _ _
      rw [hsome] at heq
      exact absurd heq (by simp)
    · next nextIdx heq =>
      obtain ⟨i, hsome, hfree, -⟩ := nextAvailableIndex_spec _ _ _ _
      rw [hsome] at heq
      injection heq with heq
      subst heq
      dsimp only
      rw [candName_eq] at hfree
      have hld : ({ (getDirCache env st file.dir).st with
          indexMap := fupd (getDirCache env st file.dir).st.indexMap
            (posixJoin file.dir (fd ++ lowerStr file.ext))
            (computeInitialIndex (getDirCache env st file.dir).set fd (lowerStr file.ext))
          } : EngineState).dirCache file.dir = some (getDirCache env st file.dir).set :=
        getDirCache_loaded env st file.dir
      have hhit2 := getDirCache_hit env
        { (getDirCache env st file.dir).st with
          indexMap := fupd (getDirCache env st file.dir).st.indexMap
            (posixJoin file.dir (fd ++ lowerStr file.ext))
            (computeInitialIndex (getDirCache env st file.dir).set fd (lowerStr file.ext)) }
        file.dir hld
      rw [hhit2.1] at hfree
      have hld3 : ({ (getDirCache env
          { (getDirCache env st file.dir).st with
            indexMap := fupd (getDirCache env st file.dir).st.indexMap
              (posixJoin file.dir (fd ++ lowerStr file.ext))
              (computeInitialIndex (getDirCache env st file.dir).set fd (lowerStr file.ext)) }
          file.dir).st with
          indexMap := fupd (getDirCache env
            { (getDirCache env st file.dir).st with
              indexMap := fupd (getDirCache env st file.dir).st.indexMap
                (posixJoin file.dir (fd ++ lowerStr file.ext))
                (computeInitialIndex (getDirCache env st file.dir).set fd (lowerStr file.ext)) }
            file.dir).st.indexMap
            (posixJoin file.dir (fd ++ lowerStr file.ext)) i } : EngineState).dirCache file.dir =
          some (getDirCache env st file.dir).set := by
          show (getDirCache env
          { (getDirCache env st file.dir).st with
            indexMap := fupd (getDirCache env st file.dir).st.indexMap
              (posixJoin file.dir (fd ++ lowerStr file.ext))
              (computeInitialIndex (getDirCache env st file.dir).set fd (lowerStr file.ext)) }
          file.dir).st.dirCache file.dir = some (getDirCache env st file.dir).set
          rw [hhit2.2.1]
          exact hld
      have hhit3 := getDirCache_hit env _ file.dir hld3
      refine ⟨_, (getDirCache env st file.dir).set,
        if i < 0 then [] else '_' :: natRepr (i + 1).toNat, rfl, rfl, ?_, rfl, rfl,
        hfree, getDirCache_listing env st file.dir hL, ?_, ?_, ?_, ?_⟩
      · by_cases hlt : i < 0
        · rw [if_pos hlt]
          exact Or.inl rfl
        · rw [if_neg hlt]
          exact Or.inr ⟨(i + 1).toNat, rfl⟩
      · intro s0 h0 x hx
        obtain ⟨hset, -, -⟩ := getDirCache_hit env st file.dir h0
        rw [hset]
        exact hx
      · rw [hhit3.1, fupd_self]
      · intro d' hd'
        rw [fupd_other _ _ _ hd', hhit3.2.1]
        show (getDirCache env
          { (getDirCache env st file.dir).st with
            indexMap := fupd (getDirCache env st file.dir).st.indexMap
              (posixJoin file.dir (fd ++ lowerStr file.ext))
              (computeInitialIndex (getDirCache env st file.dir).set fd (lowerStr file.ext)) }
          file.dir).st.dirCache d' = st.dirCache d'
        rw [hhit2.2.1]
        show (getDirCache env st file.dir).st.dirCache d' = st.dirCache d'
        exact getDirCache_other env st file.dir hd'
      · rw [hhit2.2.2, hhit3.2.2, List.append_nil, List.append_nil]
        exact getDirCache_listed env st file.dir

theorem replaceFn_cases (env : Env) (st : EngineState) (p : Str) :
    (replaceFn env st p = ⟨p, st, none, []⟩) ∨
    (∃ f fd, getDate env p = Except.ok (some (JSDate.valid f)) ∧
      formatDate (JSDate.valid f) = Except.ok fd ∧
      replaceFn env st p = assignName env st (posixParse p) p fd) := by
  unfold replaceFn
  dsimp only
  split
  · exact Or.inl rfl
  · next date heq =>
    have hmedia : (isImage (posixParse p) || isVideo (posixParse p)) = true := by
      by_cases hc : (isImage (posixParse p) || isVideo (posixParse p)) = true
      · exact hc
      · rw [if_neg hc] at heq
        exact absurd heq (by simp)
    rw [if_pos hmedia] at heq
    cases hgd : getDate env p with
    | error e =>
      rw [hgd] at heq
      exact absurd heq (by simp)
    | ok d =>
      rw [hgd] at heq
      have hd : d = some date := heq
      subst hd
      split
      · exact Or.inl rfl
      · next fd hfmt =>
        cases date with
        | invalid => exact absurd hfmt (by simp [formatDate])
        | valid f => exact Or.inr ⟨f, fd, rfl, hfmt, rfl⟩

theorem replaceFn_step (env : Env) (st : EngineState) (p : Str) (hL : cacheHasListing env st) :
    cacheHasListing env (replaceFn env st p).st ∧
    (∀ d s, st.dirCache d = some s →
      ∃ s', (replaceFn env st p).st.dirCache d = some s' ∧ ∀ x ∈ s, x ∈ s') ∧
    ((replaceFn env st p).listed = [] ∨ ∃ d0, (replaceFn env st p).listed = [d0] ∧
      st.dirCache d0 = none ∧ (replaceFn env st p).st.dirCache d0 ≠ none) ∧
    (∀ e, (replaceFn env st p).em = some e →
      EmOK env (replaceFn env st p).st e ∧
      (∀ s0, st.dirCache e.dir = some s0 → e.nameLower ∉ s0)) := by
  rcases replaceFn_cases env st p with heq | ⟨f, fd, hgd, hfmt, heq⟩
  · rw [heq]
    refine ⟨hL, ?_, Or.inl rfl, ?_⟩
    · intro d s h
      exact ⟨s, h, fun x hx => hx⟩
    · intro e he
      exact absurd he (by simp)
  · rw [heq]
    obtain ⟨e, s2, idxStr, hem, hdir, hidx, hname, hnl, hnotin, hlist, hsup, hcache, hother,
      hlisted⟩ := assignName_spec env st (posixParse p) p fd hL
    refine ⟨?_, ?_, ?_, ?_⟩
    · intro d s h m hm
      by_cases hd : d = (posixParse p).dir
      · subst hd
        rw [hcache] at h
        injection h with h
        subst h
        rw [mem_setAdd]
        exact Or.inl (hlist m hm)
      · rw [hother d hd] at h
        exact hL d s h m hm
    · intro d s h
      by_cases hd : d = (posixParse p).dir
      · subst hd
        refine ⟨setAdd s2 e.nameLower, hcache, ?_⟩
        intro x hx
        rw [mem_setAdd]
        exact Or.inl (hsup s h x hx)
      · rw [hother d hd]
        exact ⟨s, h, fun x hx => hx⟩
    · rcases hlisted with h0 | ⟨h1, h2⟩
      · exact Or.inl h0
      · refine Or.inr ⟨(posixParse p).dir, h1, h2, ?_⟩
        rw [hcache]
        simp
    · intro e' he'
      rw [hem] at he'
      injection he' with he'
      subst he'
      refine ⟨⟨?_, ?_, ?_⟩, ?_⟩
      · rw [hname, hnl, lowerStr_append, lowerStr_append]
        have hfdl : lowerStr fd = fd := lowerStr_fd hfmt
        have hidxl : lowerStr idxStr = idxStr := by
          rcases hidx with h1 | ⟨k, h1⟩
          · rw [h1]
            rfl
          · rw [h1]
            apply lowerStr_fixed
            intro c hc
            rcases List.mem_cons.1 hc with rfl | hc
            · exact lowerChar_underscore
            · exact lowerChar_of_isDig (natRepr_digits k c hc)
        rw [hfdl, hidxl]
      · refine ⟨setAdd s2 e.nameLower, ?_, ?_⟩
        · rw [hdir]
          exact hcache
        · rw [mem_setAdd]
          exact Or.inr rfl
      · intro m hm hcon
        apply hnotin
        rw [hcon]
        rw [hdir] at hm
        exact hlist m hm
      · intro s0 h0 hcon
        rw [hdir] at h0
        exact hnotin (hsup s0 h0 _ hcon)

/-! ## Lemmas: whole runs -/

theorem emsOf_cons (s : StepOut) (tr : List StepOut) :
    emsOf (s :: tr) = s.em.toList ++ emsOf tr := by
  cases hsv : s.em <;> simp [emsOf, Option.toList, hsv]

theorem EmOK_mono {env : Env} {st st' : EngineState} {e : Emission} (h : EmOK env st e)
    (hm : ∀ d s, st.dirCache d = some s → ∃ s', st'.dirCache d = some s' ∧ ∀ x ∈ s, x ∈ s') :
    EmOK env st' e := by
  obtain ⟨h1, ⟨s, hs, hmem⟩, h3⟩ := h
  obtain ⟨s', hs', hsub⟩ := hm _ _ hs
  exact ⟨h1, ⟨s', hs', hsub _ hmem⟩, h3⟩

theorem runTrace_inv (env : Env) :
    ∀ (inputs : List Str) (st : EngineState) (ems : List Emission),
      cacheHasListing env st →
      (∀ e ∈ ems, EmOK env st e) →
      List.Pairwise EmRel ems →
      cacheHasListing env (runTrace env st inputs).2 ∧
      (∀ e ∈ ems ++ emsOf (runTrace env st inputs).1, EmOK env (runTrace env st inputs).2 e) ∧
      List.Pairwise EmRel (ems ++ emsOf (runTrace env st inputs).1) := by
  intro inputs
  induction inputs with
  | nil =>
    intro st ems hL hE hP
    simp only [runTrace, emsOf, List.filterMap_nil, List.append_nil]
    exact ⟨hL, hE, hP⟩
  | cons p ps ih =>
    intro st ems hL hE hP
    obtain ⟨hL', hmono, hlisted, hem⟩ := replaceFn_step env st p hL
    have hE' : ∀ e ∈ ems ++ (replaceFn env st p).em.toList,
        EmOK env (replaceFn env st p).st e := by
      intro e he
      rcases List.mem_append.1 he with he | he
      · exact EmOK_mono (hE e he) hmono
      · cases hemv : (replaceFn env st p).em with
        | none =>
          rw [hemv] at he
          simp [Option.toList] at he
        | some e0 =>
          rw [hemv] at he
          simp only [Option.toList, List.mem_singleton] at he
          subst he
          exact (hem e hemv).1
    have hP' : List.Pairwise EmRel (ems ++ (replaceFn env st p).em.toList) := by
      rw [List.pairwise_append]
      refine ⟨hP, ?_, ?_⟩
      · cases (replaceFn env st p).em <;> simp [Option.toList]
      · intro a ha b hb
        cases hemv : (replaceFn env st p).em with
        | none =>
          rw [hemv] at hb
          simp [Option.toList] at hb
        | some e0 =>
          rw [hemv] at hb
          simp only [Option.toList, List.mem_singleton] at hb
          subst hb
          intro hdireq hcon
          obtain ⟨-, ⟨s, hs, hmem⟩, -⟩ := hE a ha
          have hnotin := (hem b hemv).2 s (by rw [← hdireq]; exact hs)
          rw [← hcon] at hnotin
          exact hnotin hmem
    have hrec := ih (replaceFn env st p).st (ems ++ (replaceFn env st p).em.toList) hL' hE' hP'
    simp only [runTrace] at hrec ⊢
    rw [emsOf_cons]
    rw [← List.append_assoc]
    exact hrec

theorem option_ne_none_of_mono {st st' : EngineState}
    (hm : ∀ d s, st.dirCache d = some s → ∃ s', st'.dirCache d = some s' ∧ ∀ x ∈ s, x ∈ s')
    {d : Str} (h : st.dirCache d ≠ none) : st'.dirCache d ≠ none := by
  obtain ⟨s, hs⟩ := Option.ne_none_iff_exists'.1 h
  obtain ⟨s', hs', -⟩ := hm d s hs
  rw [hs']
  simp

theorem runTrace_count (env : Env) :
    ∀ (inputs : List Str) (st : EngineState), cacheHasListing env st → ∀ (d : Str),
      (st.dirCache d ≠ none → (listedOf (runTrace env st inputs).1).count d = 0) ∧
      (listedOf (runTrace env st inputs).1).count d ≤ 1 := by
  intro inputs
  induction inputs with
  | nil =>
    intro st hL d
    simp [runTrace, listedOf]
  | cons p ps ih =>
    intro st hL d
    obtain ⟨hL', hmono, hlisted, -⟩ := replaceFn_step env st p hL
    have hih := ih (replaceFn env st p).st hL' d
    simp only [runTrace, listedOf] at hih ⊢
    rw [List.count_append]
    rcases hlisted with h0 | ⟨d0, h1, h2, h3⟩
    · rw [h0]
      simp only [List.count_nil, Nat.zero_add]
      refine ⟨?_, hih.2⟩
      intro hne
      exact hih.1 (option_ne_none_of_mono hmono hne)
    · rw [h1]
      constructor
      · intro hne
        have hd0 : d ≠ d0 := by
          intro hcon
          rw [hcon] at hne
          exact hne h2
        have hrest := hih.1 (option_ne_none_of_mono hmono hne)
        simp [List.count_cons, beq_iff_eq, hd0, hrest]
      · by_cases hd : d = d0
        · subst hd
          have hrest := hih.1 h3
          simp [List.count_cons, beq_iff_eq, hrest]
        · have hrest := hih.2
          simp [List.count_cons, beq_iff_eq, hd, hrest]

/-! ## The claims -/

/-- C1: over any run from a fresh engine, the assignments `replace` performs are
collision-free: two assignments into the same directory (hence in particular two
for the same BaseNameKey) never produce case-insensitively equal file names, and
no assignment case-insensitively equals a pre-existing on-disk name of its
directory. -/
theorem run_no_case_insensitive_collisions (env : Env) (inputs : List Str) :
    List.Pairwise
      (fun e1 e2 : Emission => e1.dir = e2.dir → lowerStr e1.name ≠ lowerStr e2.name)
      (emsOf (runTrace env initState inputs).1) ∧
    ∀ e ∈ emsOf (runTrace env initState inputs).1, ∀ m ∈ listingNames env e.dir,
      lowerStr e.name ≠ lowerStr m := by
  have hL : cacheHasListing env initState := by
    intro d s h
    exact absurd h (by simp [initState])
  obtain ⟨-, hE, hP⟩ := runTrace_inv env inputs initState [] hL
    (fun e he => absurd he (List.not_mem_nil e)) List.Pairwise.nil
  simp only [List.nil_append] at hE hP
  constructor
  · refine hP.imp_of_mem ?_
    intro a b ha hb hrel hdir
    obtain ⟨h1a, -, -⟩ := hE a ha
    obtain ⟨h1b, -, -⟩ := hE b hb
    rw [h1a, h1b]
    exact hrel hdir
  · intro e he m hm
    obtain ⟨h1, -, h3⟩ := hE e he
    rw [h1]
    exact h3 m hm

/-- C2: `replace` never surfaces an error to its caller.  In the model every
call reduces to one of the total outcomes below: when the metadata read throws
(the `exiftool` oracle errors) the call returns the input path unchanged with
the state untouched; when it succeeds, the call either returns the input
unchanged (no media extension, no resolvable date, or formatting of an invalid
date failed) or completes the naming block. -/
theorem replace_never_throws (env : Env) (st : EngineState) (p : Str) :
    (∃ err, getDate env p = Except.error err ∧ replaceFn env st p = ⟨p, st, none, []⟩) ∨
    (∃ d, getDate env p = Except.ok d ∧
      (replaceFn env st p = ⟨p, st, none, []⟩ ∨
        ∃ f fd, d = some (JSDate.valid f) ∧ formatDate (JSDate.valid f) = Except.ok fd ∧
          replaceFn env st p = assignName env st (posixParse p) p fd)) := by
  rcases replaceFn_cases env st p with heq | ⟨f, fd, hgd, hfmt, heq⟩
  · cases hgd : getDate env p with
    | error err => exact Or.inl ⟨err, rfl, heq⟩
    | ok d => exact Or.inr ⟨d, rfl, Or.inl heq⟩
  · exact Or.inr ⟨some (JSDate.valid f), hgd, Or.inr ⟨f, fd, rfl, hfmt, heq⟩⟩

/-- C3 (as amended): a malformed CreateDate is NOT treated as absent.  date-fns
`parse` returns an Invalid Date, which is non-null, so resolution stops at the
metadata source: `getDate` returns the invalid date, and `replace` (whose
`format` call on it throws into the catch) returns the input path unchanged —
it does not fall through to the filename sources. -/
theorem malformed_createDate_no_fallthrough (env : Env) (st : EngineState) (p out v : Str)
    (hnc : isCorrectFileName (posixParse p) = false)
    (hex : env.exiftool p = Except.ok out)
    (hcd : mapGet (parseExifOutput out) (str "CreateDate") = some v)
    (hbad : parseExifDate (jsSplitHead ['.'] v) = JSDate.invalid) :
    getDate env p = Except.ok (some JSDate.invalid) ∧
    replaceFn env st p = ⟨p, st, none, []⟩ := by
  have hc : ¬ isCorrectFileName (posixParse p) = true := by
    rw [hnc]
    exact Bool.false_ne_true
  have hge : getDateFromExif (parseExifOutput out) = some JSDate.invalid := by
    unfold getDateFromExif
    rw [hcd]
    show some (parseExifDate (jsSplitHead ['.'] v)) = some JSDate.invalid
    rw [hbad]
  have hgd : getDate env p = Except.ok (some JSDate.invalid) := by
    unfold getDate
    dsimp only
    rw [if_neg hc, hex]
    dsimp only
    rw [hge]
  refine ⟨hgd, ?_⟩
  unfold replaceFn
  dsimp only
  by_cases hm : (isImage (posixParse p) || isVideo (posixParse p)) = true
  · rw [if_pos hm, hgd]
    rfl
  · rw [if_neg hm]

/-- Witness for C3 (amended): the malformed-CreateDate environment at the path
`/d/a20200101_010203.jpg`, whose name-embedded timestamp would otherwise be
usable. -/
theorem malformed_createDate_no_fallthrough_witness :
    getDate envBad pBad = Except.ok (some JSDate.invalid) ∧
    replaceFn envBad initState pBad = ⟨pBad, initState, none, []⟩ :=
  malformed_createDate_no_fallthrough envBad initState pBad exifOutBad (str "garbage")
    rfl rfl rfl rfl

/-- C3 counterexample: a concrete run refuting the claim as stated.  The
CreateDate value "garbage" is malformed, the filename fallback source would
succeed (it holds the timestamp 2020-01-01 01:02:03), yet the resolver returns
the Invalid Date from the metadata source instead of falling through, and
`replace` leaves the path unchanged. -/
theorem malformed_createDate_fallthrough_cex :
    mapGet (parseExifOutput exifOutBad) (str "CreateDate") = some (str "garbage") ∧
    parseExifDate (jsSplitHead ['.'] (str "garbage")) = JSDate.invalid ∧
    getDateFromFileName (posixParse pBad) = some (JSDate.valid ⟨2020, 1, 1, 1, 2, 3⟩) ∧
    getDate envBad pBad = Except.ok (some JSDate.invalid) ∧
    (replaceFn envBad initState pBad).out = pBad :=
  ⟨rfl, rfl, rfl, rfl, rfl⟩

/-- C4: the resolver consults its fallback sources in the order metadata
CreateDate, filename timestamp pattern, filename epoch pattern, and the first
source to succeed wins (later sources are not consulted): on any non-canonical
path whose metadata read succeeds, `getDate` equals the spec-side first-success
chaining of the three sources. -/
theorem resolver_order_first_success (env : Env) (p out : Str)
    (hnc : isCorrectFileName (posixParse p) = false)
    (hex : env.exiftool p = Except.ok out) :
    getDate env p = Except.ok (specResolverOrder
      (getDateFromExif (parseExifOutput out))
      (getDateFromFileName (posixParse p))
      (getDateFromUnixTimestamp (posixParse p))) := by
  have hc : ¬ isCorrectFileName (posixParse p) = true := by
    rw [hnc]
    exact Bool.false_ne_true
  have hstep : getDate env p =
      match getDateFromExif (parseExifOutput out) with
      | some d => Except.ok (some d)
      | none =>
        match getDateFromFileName (posixParse p) with
        | some d => Except.ok (some d)
        | none =>
          match getDateFromUnixTimestamp (posixParse p) with
          | some d => Except.ok (some d)
          | none => Except.ok none := by
    unfold getDate
    dsimp only
    rw [if_neg hc, hex]
  rw [hstep]
  unfold specResolverOrder
  cases getDateFromExif (parseExifOutput out) with
  | some d => rfl
  | none =>
    cases getDateFromFileName (posixParse p) with
    | some d => rfl
    | none =>
      cases getDateFromUnixTimestamp (posixParse p) <;> rfl

/-- Witness for C4: the good-CreateDate environment at `/d/input.jpg`. -/
theorem resolver_order_first_success_witness :
    getDate envGood (str "/d/input.jpg") = Except.ok (specResolverOrder
      (getDateFromExif (parseExifOutput exifOutGood))
      (getDateFromFileName (posixParse (str "/d/input.jpg")))
      (getDateFromUnixTimestamp (posixParse (str "/d/input.jpg")))) :=
  resolver_order_first_success envGood (str "/d/input.jpg") exifOutGood rfl rfl

/-- C5: with `/d` pre-populated (per its listing) with `20200101_010203.jpg` and
metadata CreateDate 2020:01:01 01:02:03, the first `replace` call returns
`/d/20200101_010203_1.jpg` and a second call in the same run returns
`/d/20200101_010203_2.jpg`. -/
theorem collision_suffix_scenario :
    (replaceFn envGood initState (str "/d/input.jpg")).out =
      str "/d/20200101_010203_1.jpg" ∧
    (replaceFn envGood (replaceFn envGood initState (str "/d/input.jpg")).st
        (str "/d/b.jpg")).out = str "/d/20200101_010203_2.jpg" :=
  ⟨rfl, rfl⟩

/-- C6: `replace` is idempotent on its returned path: applying `replace` to its
own output (in the state it produced) returns that output unchanged, because
every emitted name starts with the canonical yyyyMMdd_HHmmss pattern and the
canonical-skip check classifies it as already correct on the second pass. -/
theorem replace_idempotent (env : Env) (st : EngineState) (p : Str) :
    (replaceFn env (replaceFn env st p).st (replaceFn env st p).out).out =
      (replaceFn env st p).out :=
  replace_idem_core env st p

/-- C7: the claim is FALSE of the code (a code bug): a base name in which the
timestamp pattern occurs twice is not treated as ambiguous.  The JS guard
`match.length > 1` never fires (a non-global, group-free match is a one-element
array), so the first occurrence is used: on
`/d/a20200101_010203b20210101_010203.jpg` (occurrences at offsets 1 and 17) the
filename source yields the first timestamp and `replace` renames accordingly
instead of falling through. -/
theorem ambiguous_filename_not_skipped :
    tsMatchAt ((jsSplitHead (posixParse pTwice).ext (posixParse pTwice).base).drop 1) =
      some (str "20200101_010203") ∧
    tsMatchAt ((jsSplitHead (posixParse pTwice).ext (posixParse pTwice).base).drop 17) =
      some (str "20210101_010203") ∧
    getDateFromFileName (posixParse pTwice) = some (JSDate.valid ⟨2020, 1, 1, 1, 2, 3⟩) ∧
    getDate envNone pTwice = Except.ok (some (JSDate.valid ⟨2020, 1, 1, 1, 2, 3⟩)) ∧
    (replaceFn envNone initState pTwice).out = str "/d/20200101_010203.jpg" :=
  ⟨rfl, rfl, rfl, rfl, rfl⟩

/-- C8: within one run from a fresh engine, the directory listing for any given
directory is performed at most once, no matter how many inputs are processed:
in the trace of listing events of the whole run, each directory occurs at most
once. -/
theorem directory_listing_at_most_once (env : Env) (inputs : List Str) (d : Str) :
    (listedOf (runTrace env initState inputs).1).count d ≤ 1 := by
  have hL : cacheHasListing env initState := by
    intro d' s h
    exact absurd h (by simp [initState])
  exact (runTrace_count env inputs initState hL d).2

/-- C9: the suffix-search loop terminates on every input: for any finite
known-name set, formatted timestamp, extension and starting index, it reaches
(and returns) an index at or above the start whose candidate name is free. -/
theorem next_available_index_terminates (set : List Str) (fd extLower : Str) (start : Int) :
    ∃ i, nextAvailableIndex set fd extLower start = some i ∧
      candName fd extLower i ∉ set ∧ start ≤ i :=
  nextAvailableIndex_spec set fd extLower start

/-- C10 (as amended): `replace` only ever changes the final filename component:
the returned path is either the input itself or `path.join` of the input's
directory with a non-empty, slash-free file name.  (The directory component is
preserved only up to posix normalization performed by `path.join`, not as raw
text — see the counterexample.) -/
theorem dir_preserved_up_to_normalization (env : Env) (st : EngineState) (p : Str) :
    (replaceFn env st p).out = p ∨
    ∃ name : Str, name ≠ [] ∧ (∀ c ∈ name, c ≠ '/') ∧
      (replaceFn env st p).out = posixJoin (posixParse p).dir name := by
  rcases replaceFn_shape env st p with heq | ⟨f, fd, idxStr, hgd, hfmt, hmedia, hidx, hout, -⟩
  · rw [heq]
    exact Or.inl rfl
  · right
    refine ⟨(fd ++ idxStr) ++ (posixParse p).ext, ?_, ?_, hout⟩
    · obtain ⟨d8, d6, hfd, h8, -, -, -⟩ := formatDate_shape (getDate_fieldsOK hgd)
      rw [hfmt] at hfd
      injection hfd with hfd
      subst hfd
      intro hcon
      simp at hcon
    · intro c hc
      rcases List.mem_append.1 hc with hc | hc
      · rcases List.mem_append.1 hc with hc | hc
        · rcases formatDate_chars hfmt c hc with hdig | hund
          · exact isDig_ne_slash hdig
          · rw [hund]
            decide
        · rcases hidx with h0 | ⟨k, h0⟩
          · rw [h0] at hc
            cases hc
          · rw [h0] at hc
            rcases List.mem_cons.1 hc with rfl | hc
            · decide
            · exact isDig_ne_slash (natRepr_digits k c hc)
      · have hb := posixParse_base_noSlash p
        rw [posixParse_ext_eq] at hc
        exact hb c (extSplit_snd_subset _ c hc)

/-- C10 counterexample: the directory component is not preserved as text.  On
`a//1500000000000.jpg` (resolved via the epoch source) the input parses to the
directory `a/` but the output `a/20170714_024000.jpg` parses to the directory
`a`, because `path.join` normalized the doubled slash away. -/
theorem dir_text_changed_cex :
    (posixParse pSlash).dir = str "a/" ∧
    (replaceFn envNone initState pSlash).out = str "a/20170714_024000.jpg" ∧
    (posixParse ((replaceFn envNone initState pSlash).out)).dir = str "a" ∧
    (posixParse ((replaceFn envNone initState pSlash).out)).dir ≠ (posixParse pSlash).dir :=
  ⟨rfl, rfl, rfl, by decide⟩

end MediaDateTime
